import Mathlib

/-!
Verification development for the massa protocol worker and its compact
binary codec.  The codec of `massa-models/src/block.rs` is translated
directly from the source; the crates it depends on (hashing, signatures,
slots, operations, endorsements, integer framings) and the protocol worker
itself are modelled from the specification, as noted in each doc comment.
Bytes are modelled as natural numbers (`< 256` where it matters) and byte
strings as lists of naturals.
-/

namespace Massa

set_option maxRecDepth 10000

/-- A byte string: list of naturals, each `< 256` for well-formed data. -/
abbrev Bytes := List Nat

/-- Error kinds of `massa-models` (`ModelsError`), restricted to the
constructors reachable from the embedded code. -/
inductive ModelsError where
  | DeserializeError (msg : String)
  | SerializeError (msg : String)
  | HashError
  | InvalidSignature
deriving DecidableEq, Repr

deriving instance DecidableEq for Except

/-! ## Byte-level framing helpers

Modelled from the spec: `u8_from_slice` reads one byte, `array_from_slice`
reads a fixed-width array, both failing with `DeserializeError` when the
buffer is too short. -/

/-- Modelled from the spec: read the first byte of a slice. -/
def u8_from_slice : Bytes → Except ModelsError Nat
  | [] => .error (.DeserializeError "buffer too small")
  | b :: _ => .ok b

/-- Modelled from the spec: read a fixed `n`-byte array from the front of a
slice. -/
def array_from_slice (n : Nat) (buf : Bytes) : Except ModelsError Bytes :=
  if n ≤ buf.length then .ok (buf.take n) else .error (.DeserializeError "buffer too small")

/-! ## VarInt framing

Modelled from the spec: LEB128-style varints, 7 data bits per byte, most
significant bit is the continuation flag; least significant group first. -/

/-- Fuelled LEB128 encoder (structural recursion so that the kernel can
evaluate it; the fuel is always sufficient at the call site below). -/
def toVarintBytesAux : Nat → Nat → Bytes
  | 0, _ => []
  | fuel + 1, n =>
    if n < 128 then [n] else (n % 128 + 128) :: toVarintBytesAux fuel (n / 128)

/-- Modelled from the spec: LEB128 encoding of a natural number. -/
def toVarintBytes (n : Nat) : Bytes := toVarintBytesAux (n + 1) n

theorem toVarintBytesAux_congr (n : Nat) :
    ∀ f1 f2, n < f1 → n < f2 → toVarintBytesAux f1 n = toVarintBytesAux f2 n := by
  induction n using Nat.strong_induction_on with
  | _ n ih =>
    intro f1 f2 h1 h2
    cases f1 with
    | zero => omega
    | succ g1 =>
      cases f2 with
      | zero => omega
      | succ g2 =>
        by_cases h : n < 128
        · simp [toVarintBytesAux, h]
        · have hlt : n / 128 < n := Nat.div_lt_self (by omega) (by omega)
          simp only [toVarintBytesAux, h, if_false]
          rw [ih (n / 128) hlt g1 g2 (by omega) (by omega)]

/-- The defining recurrence of `toVarintBytes`. -/
theorem toVarintBytes_eq (n : Nat) :
    toVarintBytes n
      = if n < 128 then [n] else (n % 128 + 128) :: toVarintBytes (n / 128) := by
  by_cases h : n < 128
  · simp [toVarintBytes, toVarintBytesAux, h]
  · have hlt : n / 128 < n := Nat.div_lt_self (by omega) (by omega)
    unfold toVarintBytes
    simp only [toVarintBytesAux, h, if_false]
    rw [toVarintBytesAux_congr (n / 128) n (n / 128 + 1) (by omega) (by omega)]
    rfl

/-- Modelled from the spec: LEB128 decoding; returns the value and the number
of bytes consumed. -/
def fromVarintBytes : Bytes → Except ModelsError (Nat × Nat)
  | [] => .error (.DeserializeError "buffer too small")
  | b :: rest =>
    if b < 128 then .ok (b, 1)
    else
      match fromVarintBytes rest with
      | .error e => .error e
      | .ok (v, d) => .ok (v * 128 + (b - 128), d + 1)

/-- Modelled from the spec: bounded u32 varint decoding
(`u32::from_varint_bytes_bounded`): rejects values above the u32 range and
values above `maxValue`. -/
def fromVarintBytesBounded (buf : Bytes) (maxValue : Nat) : Except ModelsError (Nat × Nat) :=
  match fromVarintBytes buf with
  | .error e => .error e
  | .ok (v, d) =>
    if 2 ^ 32 ≤ v then .error (.DeserializeError "varint out of range")
    else if maxValue < v then .error (.DeserializeError "varint value out of bounds")
    else .ok (v, d)

/-- The varint decoder inverts the encoder, consuming exactly the encoded
bytes and ignoring any suffix. -/
theorem fromVarintBytes_toVarintBytes (n : Nat) (rest : Bytes) :
    fromVarintBytes (toVarintBytes n ++ rest) = .ok (n, (toVarintBytes n).length) := by
  induction n using Nat.strong_induction_on with
  | _ n ih =>
    rw [toVarintBytes_eq]
    by_cases h : n < 128
    · simp [h, fromVarintBytes]
    · have hpos : 0 < n := by omega
      have hlt : n / 128 < n := Nat.div_lt_self hpos (by omega)
      simp only [h, if_false, List.cons_append, fromVarintBytes]
      have hge : ¬ (n % 128 + 128 < 128) := by omega
      simp only [hge, if_false, ih (n / 128) hlt, List.length_cons]
      have : n / 128 * 128 + (n % 128 + 128 - 128) = n := by
        have := Nat.div_add_mod n 128
        omega
      rw [this]

/-! ## Bounded big-endian min-width framing

Modelled from the spec: an absolute count bounded by `max` is encoded in
the minimum number of big-endian bytes sufficient to represent `max`;
decoding consumes the same fixed width and rejects values above `max`. -/

/-- Fuelled byte-width computation (structural recursion so that the kernel
can evaluate it; the fuel is always sufficient at the call site below). -/
def byteWidthAux : Nat → Nat → Nat
  | 0, _ => 0
  | fuel + 1, m => if m = 0 then 0 else byteWidthAux fuel (m / 256) + 1

/-- Number of bytes needed to represent `m` (0 bytes for `m = 0`). -/
def byteWidth (m : Nat) : Nat := byteWidthAux (m + 1) m

theorem byteWidthAux_congr (m : Nat) :
    ∀ f1 f2, m < f1 → m < f2 → byteWidthAux f1 m = byteWidthAux f2 m := by
  induction m using Nat.strong_induction_on with
  | _ m ih =>
    intro f1 f2 h1 h2
    cases f1 with
    | zero => omega
    | succ g1 =>
      cases f2 with
      | zero => omega
      | succ g2 =>
        by_cases h : m = 0
        · simp [byteWidthAux, h]
        · have hlt : m / 256 < m := Nat.div_lt_self (by omega) (by omega)
          simp only [byteWidthAux, h, if_false]
          rw [ih (m / 256) hlt g1 g2 (by omega) (by omega)]

/-- The defining recurrence of `byteWidth`. -/
theorem byteWidth_eq (m : Nat) :
    byteWidth m = if m = 0 then 0 else byteWidth (m / 256) + 1 := by
  by_cases h : m = 0
  · simp [byteWidth, byteWidthAux, h]
  · have hlt : m / 256 < m := Nat.div_lt_self (by omega) (by omega)
    unfold byteWidth
    simp only [byteWidthAux, h, if_false]
    rw [byteWidthAux_congr (m / 256) m (m / 256 + 1) (by omega) (by omega)]
    rfl

/-- `v` written as exactly `w` big-endian bytes (most significant first). -/
def beBytesAux : Nat → Nat → Bytes
  | 0, _ => []
  | w + 1, v => beBytesAux w (v / 256) ++ [v % 256]

/-- Fold a big-endian byte list back into a natural number. -/
def beFold (l : Bytes) : Nat := l.foldl (fun a b => a * 256 + b) 0

/-- Modelled from the spec: `u32::to_be_bytes_min` — encode `v` in the
minimal big-endian width determined by `maxValue`, rejecting `v > maxValue`. -/
def to_be_bytes_min (v maxValue : Nat) : Except ModelsError Bytes :=
  if v ≤ maxValue then .ok (beBytesAux (byteWidth maxValue) v)
  else .error (.SerializeError "value too large")

/-- Modelled from the spec: `u32::from_be_bytes_min` — decode a big-endian
value of the width determined by `maxValue`, rejecting values above
`maxValue`. -/
def from_be_bytes_min (buf : Bytes) (maxValue : Nat) : Except ModelsError (Nat × Nat) :=
  let w := byteWidth maxValue
  if w ≤ buf.length then
    let v := beFold (buf.take w)
    if maxValue < v then .error (.DeserializeError "be-min value out of bounds")
    else .ok (v, w)
  else .error (.DeserializeError "buffer too small")

theorem beBytesAux_length (w v : Nat) : (beBytesAux w v).length = w := by
  induction w generalizing v with
  | zero => rfl
  | succ w ih => simp [beBytesAux, ih]

theorem byteWidth_bound (m : Nat) : m < 256 ^ byteWidth m := by
  induction m using Nat.strong_induction_on with
  | _ m ih =>
    rw [byteWidth_eq]
    by_cases h : m = 0
    · simp [h]
    · have hlt : m / 256 < m := Nat.div_lt_self (by omega) (by omega)
      have hb := ih (m / 256) hlt
      simp only [h, if_false, pow_succ]
      have h1 : m / 256 + 1 ≤ 256 ^ byteWidth (m / 256) := hb
      have h2 : m < (m / 256 + 1) * 256 := by
        have := Nat.div_add_mod m 256
        have : m % 256 < 256 := Nat.mod_lt _ (by omega)
        omega
      calc m < (m / 256 + 1) * 256 := h2
        _ ≤ 256 ^ byteWidth (m / 256) * 256 := by
            exact Nat.mul_le_mul_right 256 h1

theorem beFold_beBytesAux_general (w v a : Nat) (hv : v < 256 ^ w) :
    (beBytesAux w v).foldl (fun x b => x * 256 + b) a = a * 256 ^ w + v := by
  induction w generalizing v a with
  | zero =>
    have : v = 0 := by simpa using hv
    simp [beBytesAux, this]
  | succ w ih =>
    have hdiv : v / 256 < 256 ^ w := by
      rw [Nat.div_lt_iff_lt_mul (by omega)]
      calc v < 256 ^ (w + 1) := hv
        _ = 256 ^ w * 256 := by ring
    simp only [beBytesAux, List.foldl_append, List.foldl_cons, List.foldl_nil,
      ih (v / 256) a hdiv]
    have hvm := Nat.div_add_mod v 256
    have hexp : 256 ^ (w + 1) = 256 ^ w * 256 := by ring
    calc (a * 256 ^ w + v / 256) * 256 + v % 256
        = a * (256 ^ w * 256) + (256 * (v / 256) + v % 256) := by ring
      _ = a * 256 ^ (w + 1) + v := by rw [hvm, ← hexp]

theorem beFold_beBytesAux (w v : Nat) (hv : v < 256 ^ w) :
    beFold (beBytesAux w v) = v := by
  simpa using beFold_beBytesAux_general w v 0 hv

/-- The bounded big-endian decoder inverts the encoder. -/
theorem from_be_bytes_min_roundtrip (v maxValue : Nat) (rest : Bytes) (bs : Bytes)
    (henc : to_be_bytes_min v maxValue = .ok bs) :
    from_be_bytes_min (bs ++ rest) maxValue = .ok (v, byteWidth maxValue) ∧
      bs.length = byteWidth maxValue := by
  unfold to_be_bytes_min at henc
  by_cases h : v ≤ maxValue
  · simp only [h, if_true, Except.ok.injEq] at henc
    subst henc
    have hlen : (beBytesAux (byteWidth maxValue) v).length = byteWidth maxValue :=
      beBytesAux_length _ _
    have hvlt : v < 256 ^ byteWidth maxValue :=
      Nat.lt_of_le_of_lt h (byteWidth_bound maxValue)
    constructor
    · unfold from_be_bytes_min
      have hle : byteWidth maxValue ≤ (beBytesAux (byteWidth maxValue) v ++ rest).length := by
        simp [hlen]
      rw [if_pos hle]
      have htake : (beBytesAux (byteWidth maxValue) v ++ rest).take (byteWidth maxValue)
          = beBytesAux (byteWidth maxValue) v := by
        rw [List.take_append_of_le_length (by omega), List.take_of_length_le (by omega)]
      rw [htake, beFold_beBytesAux _ _ hvlt, if_neg (by omega)]
    · exact hlen
  · simp [h] at henc

/-! ## Hashes and the crypto collaborator

Modelled from the spec: `Hash` is a fixed 32-byte digest; signature
primitives (sign, verify, key derivation) are an opaque collaborator with
idealised semantics (a signature verifies against a public key exactly when
it was produced with the matching private key over the same message). -/

def HASH_SIZE_BYTES : Nat := 32

/-- A 32-byte digest. -/
structure Hash where
  bytes : Bytes
deriving DecidableEq, Repr

/-- Modelled from the spec: `Hash::compute_from`, an opaque deterministic
digest; embedded as a computable 32-byte mixing function (its cryptographic
strength is irrelevant to the claims, only determinism and byte width). -/
def Hash.compute_from (data : Bytes) : Hash :=
  let s := data.foldl (fun a b => (a * 31 + b + 1) % 256) 7
  ⟨(List.range 32).map (fun i => (s * (i + 1) + i + data.length) % 256)⟩

def Hash.to_bytes (h : Hash) : Bytes := h.bytes

/-- Modelled from the spec: `Hash::from_bytes` over an exactly-32-byte array
(the callers in `block.rs` always pass the result of `array_from_slice`). -/
def Hash.from_bytes (data : Bytes) : Except ModelsError Hash := .ok ⟨data⟩

theorem Hash.compute_from_length (data : Bytes) :
    (Hash.compute_from data).bytes.length = 32 := by
  simp [Hash.compute_from]

def PUBLIC_KEY_SIZE_BYTES : Nat := 32
def SIGNATURE_SIZE_BYTES : Nat := 64

/-- Modelled from the spec: opaque fixed-width public key (32 bytes). -/
structure PublicKey where
  bytes : Bytes
deriving DecidableEq, Repr

/-- Modelled from the spec: opaque private key. -/
structure PrivateKey where
  bytes : Bytes
deriving DecidableEq, Repr

/-- Modelled from the spec: opaque fixed-width signature (64 bytes). -/
structure Signature where
  bytes : Bytes
deriving DecidableEq, Repr

def Signature.to_bytes (s : Signature) : Bytes := s.bytes

def Signature.from_bytes (data : Bytes) : Except ModelsError Signature := .ok ⟨data⟩

/-- Modelled from the spec: deterministic public-key derivation. -/
def derive_public_key (k : PrivateKey) : PublicKey :=
  ⟨(Hash.compute_from k.bytes).bytes⟩

/-- Modelled from the spec: signing a 32-byte message hash.  The idealised
signature records the message digest and the signer's public key, giving the
standard idealised semantics of an unforgeable signature scheme while fitting
the 64-byte wire width. -/
def sign (h : Hash) (k : PrivateKey) : Except ModelsError Signature :=
  .ok ⟨h.bytes ++ (derive_public_key k).bytes⟩

/-- Modelled from the spec: signature verification against a declared public
key; succeeds exactly when the signature was produced over `h` with the
private key matching `pk`. -/
def verify_signature (h : Hash) (s : Signature) (pk : PublicKey) :
    Except ModelsError Unit :=
  if s.bytes = h.bytes ++ pk.bytes then .ok () else .error .InvalidSignature

/-! ## Slot -/

/-- `Slot`: pair `(period: u64, thread: u8)`. -/
structure Slot where
  period : Nat
  thread : Nat
deriving DecidableEq, Repr

/-- Modelled from the spec: `Slot::to_bytes_compact` — period as a u64 varint
followed by the thread byte.  The u64/u8 ranges are enforced here because the
embedding uses unbounded naturals where Rust's types make the ranges
implicit. -/
def Slot.to_bytes_compact (s : Slot) : Except ModelsError Bytes :=
  if s.period < 2 ^ 64 ∧ s.thread < 256 then
    .ok (toVarintBytes s.period ++ [s.thread])
  else .error (.SerializeError "slot out of range")

/-- Modelled from the spec: `Slot::from_bytes_compact` — u64 varint period
then thread byte. -/
def Slot.from_bytes_compact (buf : Bytes) : Except ModelsError (Slot × Nat) :=
  match fromVarintBytes buf with
  | .error e => .error e
  | .ok (period, d) =>
    if 2 ^ 64 ≤ period then .error (.DeserializeError "varint out of range")
    else
      match u8_from_slice (buf.drop d) with
      | .error e => .error e
      | .ok thread => .ok (⟨period, thread⟩, d + 1)

def SLOT_KEY_SIZE : Nat := 9

/-- Modelled from the spec: `Slot::to_bytes_key` — fixed `SLOT_KEY_SIZE`
big-endian form (8-byte period, 1-byte thread) used as signature-message
prefix. -/
def Slot.to_bytes_key (s : Slot) : Bytes :=
  beBytesAux 8 s.period ++ [s.thread]

/-! ## Content-addressed ids -/

def BLOCK_ID_SIZE_BYTES : Nat := 32

/-- `BlockId(Hash)` from `block.rs`. -/
structure BlockId where
  hash : Hash
deriving DecidableEq, Repr

def BlockId.to_bytes (b : BlockId) : Bytes := b.hash.to_bytes

/-- `BlockId::from_bytes` (the underlying `Hash::from_bytes` cannot fail on a
32-byte array, so neither can this). -/
def BlockId.from_bytes (data : Bytes) : Except ModelsError BlockId :=
  match Hash.from_bytes data with
  | .error _ => .error .HashError
  | .ok h => .ok ⟨h⟩

/-- Modelled from the spec: `OperationId`, a 32-byte content hash. -/
structure OperationId where
  hash : Hash
deriving DecidableEq, Repr

/-- Modelled from the spec: `EndorsementId`, a 32-byte content hash. -/
structure EndorsementId where
  hash : Hash
deriving DecidableEq, Repr

/-! ## Operations

Modelled from the spec: `OperationContent = {fee, expire_period,
sender_public_key, op_type}`; `Operation = {content, signature}`; the
signature covers `hash(content_bytes)`; `operation_id =
hash(serialize(Operation))`.  The spec leaves the wire format of `op_type`
open; it is embedded as a single tag byte. -/

structure OperationContent where
  fee : Nat
  expire_period : Nat
  sender_public_key : PublicKey
  op_type : Nat
deriving DecidableEq, Repr

/-- Modelled from the spec: compact encoding of an operation's content —
fee varint, expire-period varint, sender public key, op-type tag byte. -/
def OperationContent.to_bytes_compact (c : OperationContent) : Except ModelsError Bytes :=
  if c.fee < 2 ^ 64 ∧ c.expire_period < 2 ^ 64 ∧ c.op_type < 256 then
    .ok (toVarintBytes c.fee ++ toVarintBytes c.expire_period ++
      c.sender_public_key.bytes ++ [c.op_type])
  else .error (.SerializeError "operation content out of range")

/-- Modelled from the spec: compact decoding of an operation's content. -/
def OperationContent.from_bytes_compact (buf : Bytes) :
    Except ModelsError (OperationContent × Nat) :=
  match fromVarintBytes buf with
  | .error e => .error e
  | .ok (fee, d1) =>
    if 2 ^ 64 ≤ fee then .error (.DeserializeError "varint out of range")
    else
      match fromVarintBytes (buf.drop d1) with
      | .error e => .error e
      | .ok (ep, d2) =>
        if 2 ^ 64 ≤ ep then .error (.DeserializeError "varint out of range")
        else
          match array_from_slice PUBLIC_KEY_SIZE_BYTES (buf.drop (d1 + d2)) with
          | .error e => .error e
          | .ok pkb =>
            match u8_from_slice (buf.drop (d1 + d2 + PUBLIC_KEY_SIZE_BYTES)) with
            | .error e => .error e
            | .ok t =>
              .ok (⟨fee, ep, ⟨pkb⟩, t⟩, d1 + d2 + PUBLIC_KEY_SIZE_BYTES + 1)

structure Operation where
  content : OperationContent
  signature : Signature
deriving DecidableEq, Repr

/-- Modelled from the spec: compact encoding of an operation — content
followed by the 64-byte signature. -/
def Operation.to_bytes_compact (op : Operation) : Except ModelsError Bytes :=
  match op.content.to_bytes_compact with
  | .error e => .error e
  | .ok cb => .ok (cb ++ op.signature.bytes)

/-- Modelled from the spec: compact decoding of an operation. -/
def Operation.from_bytes_compact (buf : Bytes) :
    Except ModelsError (Operation × Nat) :=
  match OperationContent.from_bytes_compact buf with
  | .error e => .error e
  | .ok (c, d) =>
    match array_from_slice SIGNATURE_SIZE_BYTES (buf.drop d) with
    | .error e => .error e
    | .ok sb => .ok (⟨c, ⟨sb⟩⟩, d + SIGNATURE_SIZE_BYTES)

/-- Modelled from the spec: `operation_id = hash(serialize(Operation))`. -/
def Operation.get_operation_id (op : Operation) : Except ModelsError OperationId :=
  match op.to_bytes_compact with
  | .error e => .error e
  | .ok b => .ok ⟨Hash.compute_from b⟩

/-- Modelled from the spec: `Operation::verify_integrity` — recompute
`hash(serialize(content))`, verify the signature against
`sender_public_key`, and return the operation id on success. -/
def Operation.verify_integrity (op : Operation) : Except ModelsError OperationId :=
  match op.content.to_bytes_compact with
  | .error e => .error e
  | .ok cb =>
    match verify_signature (Hash.compute_from cb) op.signature
        op.content.sender_public_key with
    | .error e => .error e
    | .ok _ => op.get_operation_id

/-! ## Endorsements

Modelled from the spec: `EndorsementContent = {sender_public_key, slot,
index, endorsed_block}`; `Endorsement = {content, signature}`; id derived
analogously to operations. -/

structure EndorsementContent where
  sender_public_key : PublicKey
  slot : Slot
  index : Nat
  endorsed_block : BlockId
deriving DecidableEq, Repr

/-- Modelled from the spec: compact encoding of an endorsement's content —
sender public key, slot, index as a u32 varint, endorsed block id. -/
def EndorsementContent.to_bytes_compact (c : EndorsementContent) :
    Except ModelsError Bytes :=
  match c.slot.to_bytes_compact with
  | .error e => .error e
  | .ok sb =>
    if c.index < 2 ^ 32 then
      .ok (c.sender_public_key.bytes ++ sb ++ toVarintBytes c.index ++
        c.endorsed_block.to_bytes)
    else .error (.SerializeError "endorsement index out of range")

/-- Modelled from the spec: compact decoding of an endorsement's content. -/
def EndorsementContent.from_bytes_compact (buf : Bytes) :
    Except ModelsError (EndorsementContent × Nat) :=
  match array_from_slice PUBLIC_KEY_SIZE_BYTES buf with
  | .error e => .error e
  | .ok pkb =>
    match Slot.from_bytes_compact (buf.drop PUBLIC_KEY_SIZE_BYTES) with
    | .error e => .error e
    | .ok (slot, d1) =>
      match fromVarintBytes (buf.drop (PUBLIC_KEY_SIZE_BYTES + d1)) with
      | .error e => .error e
      | .ok (idx, d2) =>
        if 2 ^ 32 ≤ idx then .error (.DeserializeError "varint out of range")
        else
          match array_from_slice BLOCK_ID_SIZE_BYTES
              (buf.drop (PUBLIC_KEY_SIZE_BYTES + d1 + d2)) with
          | .error e => .error e
          | .ok bb =>
            .ok (⟨⟨pkb⟩, slot, idx, ⟨⟨bb⟩⟩⟩,
              PUBLIC_KEY_SIZE_BYTES + d1 + d2 + BLOCK_ID_SIZE_BYTES)

structure Endorsement where
  content : EndorsementContent
  signature : Signature
deriving DecidableEq, Repr

/-- Modelled from the spec: compact encoding of an endorsement — content
followed by the 64-byte signature. -/
def Endorsement.to_bytes_compact (e : Endorsement) : Except ModelsError Bytes :=
  match e.content.to_bytes_compact with
  | .error er => .error er
  | .ok cb => .ok (cb ++ e.signature.bytes)

/-- Modelled from the spec: compact decoding of an endorsement. -/
def Endorsement.from_bytes_compact (buf : Bytes) :
    Except ModelsError (Endorsement × Nat) :=
  match EndorsementContent.from_bytes_compact buf with
  | .error e => .error e
  | .ok (c, d) =>
    match array_from_slice SIGNATURE_SIZE_BYTES (buf.drop d) with
    | .error e => .error e
    | .ok sb => .ok (⟨c, ⟨sb⟩⟩, d + SIGNATURE_SIZE_BYTES)

/-- Modelled from the spec: `endorsement_id = hash(serialize(Endorsement))`. -/
def Endorsement.compute_endorsement_id (e : Endorsement) :
    Except ModelsError EndorsementId :=
  match e.to_bytes_compact with
  | .error er => .error er
  | .ok b => .ok ⟨Hash.compute_from b⟩

/-- Modelled from the spec: `Endorsement::verify_integrity`, analogous to
operations. -/
def Endorsement.verify_integrity (e : Endorsement) :
    Except ModelsError EndorsementId :=
  match e.content.to_bytes_compact with
  | .error er => .error er
  | .ok cb =>
    match verify_signature (Hash.compute_from cb) e.signature
        e.content.sender_public_key with
    | .error er => .error er
    | .ok _ => e.compute_endorsement_id

/-! ## Serialization context

The process-wide read-only configuration, restricted to the fields read by
`block.rs`; it is passed explicitly to the codec (the spec's recommended
strategy for embedding the singleton). -/

structure SerializationContext where
  thread_count : Nat
  max_block_size : Nat
  max_operations_per_block : Nat
  endorsement_count : Nat
deriving DecidableEq, Repr

/-! ## Block data model (`massa-models/src/block.rs`) -/

structure BlockHeaderContent where
  creator : PublicKey
  slot : Slot
  parents : List BlockId
  operation_merkle_root : Hash
  endorsements : List Endorsement
deriving DecidableEq, Repr

structure BlockHeader where
  content : BlockHeaderContent
  signature : Signature
deriving DecidableEq, Repr

structure Block where
  header : BlockHeader
  operations : List Operation
deriving DecidableEq, Repr

/-- Encode a list of endorsements by concatenating their compact encodings
(the serializer's `for` loop). -/
def encodeEndorsements : List Endorsement → Except ModelsError Bytes
  | [] => .ok []
  | e :: rest =>
    match e.to_bytes_compact with
    | .error er => .error er
    | .ok eb =>
      match encodeEndorsements rest with
      | .error er => .error er
      | .ok rb => .ok (eb ++ rb)

/-- Encode a list of operations by concatenating their compact encodings
(the serializer's `for` loop). -/
def encodeOperations : List Operation → Except ModelsError Bytes
  | [] => .ok []
  | op :: rest =>
    match op.to_bytes_compact with
    | .error er => .error er
    | .ok ob =>
      match encodeOperations rest with
      | .error er => .error er
      | .ok rb => .ok (ob ++ rb)

/-- `BlockHeaderContent::to_bytes_compact`: creator key, slot, parents flag
byte (0 = empty, 1 = present) followed by the parent ids, operation merkle
root, endorsement count as a varint (after a u32 range check), then the
endorsements. -/
def BlockHeaderContent.to_bytes_compact (c : BlockHeaderContent) :
    Except ModelsError Bytes :=
  match c.slot.to_bytes_compact with
  | .error e => .error e
  | .ok slotB =>
    if 2 ^ 32 ≤ c.endorsements.length then
      .error (.SerializeError "too many endorsements")
    else
      match encodeEndorsements c.endorsements with
      | .error e => .error e
      | .ok endB =>
        .ok (c.creator.bytes ++ slotB ++
          (if c.parents.isEmpty then [0] else [1]) ++
          (c.parents.map BlockId.to_bytes).flatten ++
          c.operation_merkle_root.to_bytes ++
          toVarintBytes c.endorsements.length ++ endB)

/-- `BlockHeader::to_bytes_compact`: signed content followed by the
signature. -/
def BlockHeader.to_bytes_compact (h : BlockHeader) : Except ModelsError Bytes :=
  match h.content.to_bytes_compact with
  | .error e => .error e
  | .ok cb => .ok (cb ++ h.signature.to_bytes)

/-- `Block::to_bytes_compact`: header, then the operation count (u32 range
check, then bounded big-endian min-width against
`max_operations_per_block`), then the operations. -/
def Block.to_bytes_compact (ctx : SerializationContext) (b : Block) :
    Except ModelsError Bytes :=
  match b.header.to_bytes_compact with
  | .error e => .error e
  | .ok hb =>
    if 2 ^ 32 ≤ b.operations.length then
      .error (.SerializeError "too many operations")
    else
      match to_be_bytes_min b.operations.length ctx.max_operations_per_block with
      | .error e => .error e
      | .ok cntB =>
        match encodeOperations b.operations with
        | .error e => .error e
        | .ok opsB => .ok (hb ++ cntB ++ opsB)

/-- The decoder's parents loop: read exactly `k` block ids starting at
`cursor`. -/
def readBlockIds (buf : Bytes) : Nat → Nat → Except ModelsError (List BlockId × Nat)
  | cursor, 0 => .ok ([], cursor)
  | cursor, k + 1 =>
    match array_from_slice BLOCK_ID_SIZE_BYTES (buf.drop cursor) with
    | .error e => .error e
    | .ok idb =>
      match BlockId.from_bytes idb with
      | .error e => .error e
      | .ok pid =>
        match readBlockIds buf (cursor + BLOCK_ID_SIZE_BYTES) k with
        | .error e => .error e
        | .ok (rest, c) => .ok (pid :: rest, c)

/-- The decoder's endorsements loop: read exactly `k` endorsements starting
at `cursor`. -/
def readEndorsements (buf : Bytes) : Nat → Nat → Except ModelsError (List Endorsement × Nat)
  | cursor, 0 => .ok ([], cursor)
  | cursor, k + 1 =>
    match Endorsement.from_bytes_compact (buf.drop cursor) with
    | .error e => .error e
    | .ok (en, d) =>
      match readEndorsements buf (cursor + d) k with
      | .error e => .error e
      | .ok (rest, c) => .ok (en :: rest, c)

/-- `BlockHeaderContent::from_bytes_compact`: creator key, slot, parents
flag (1 reads exactly `thread_count` parent ids, 0 reads none, anything else
is rejected — with a `SerializeError`, as in the source), merkle root,
bounded endorsement count, endorsements. -/
def BlockHeaderContent.from_bytes_compact (ctx : SerializationContext) (buf : Bytes) :
    Except ModelsError (BlockHeaderContent × Nat) :=
  match array_from_slice PUBLIC_KEY_SIZE_BYTES buf with
  | .error e => .error e
  | .ok pkb =>
    match Slot.from_bytes_compact (buf.drop PUBLIC_KEY_SIZE_BYTES) with
    | .error e => .error e
    | .ok (slot, d1) =>
      match u8_from_slice (buf.drop (PUBLIC_KEY_SIZE_BYTES + d1)) with
      | .error e => .error e
      | .ok hasParents =>
        let c2 := PUBLIC_KEY_SIZE_BYTES + d1 + 1
        match
          (if hasParents = 1 then readBlockIds buf c2 ctx.thread_count
           else if hasParents = 0 then .ok ([], c2)
           else .error (.SerializeError
             "BlockHeaderContent from_bytes_compact bad has parents flags.")) with
        | .error e => .error e
        | .ok (parents, c3) =>
          match array_from_slice HASH_SIZE_BYTES (buf.drop c3) with
          | .error e => .error e
          | .ok mb =>
            let c4 := c3 + HASH_SIZE_BYTES
            match fromVarintBytesBounded (buf.drop c4) ctx.endorsement_count with
            | .error e => .error e
            | .ok (ecnt, d2) =>
              let c5 := c4 + d2
              match readEndorsements buf c5 ecnt with
              | .error e => .error e
              | .ok (endos, c6) =>
                .ok (⟨⟨pkb⟩, slot, parents, ⟨mb⟩, endos⟩, c6)

/-- `BlockHeader::from_bytes_compact`: signed content followed by the
64-byte signature. -/
def BlockHeader.from_bytes_compact (ctx : SerializationContext) (buf : Bytes) :
    Except ModelsError (BlockHeader × Nat) :=
  match BlockHeaderContent.from_bytes_compact ctx buf with
  | .error e => .error e
  | .ok (content, d) =>
    match array_from_slice SIGNATURE_SIZE_BYTES (buf.drop d) with
    | .error e => .error e
    | .ok sb => .ok (⟨content, ⟨sb⟩⟩, d + SIGNATURE_SIZE_BYTES)

/-- The decoder's operations loop: read exactly `k` operations starting at
`cursor`, checking the running cursor against `max_block_size` after each
operation (as in the source's `for` loop). -/
def readOperations (ctx : SerializationContext) (buf : Bytes) :
    Nat → Nat → Except ModelsError (List Operation × Nat)
  | cursor, 0 => .ok ([], cursor)
  | cursor, k + 1 =>
    match Operation.from_bytes_compact (buf.drop cursor) with
    | .error e => .error e
    | .ok (op, d) =>
      let c := cursor + d
      if ctx.max_block_size < c then .error (.DeserializeError "block is too large")
      else
        match readOperations ctx buf c k with
        | .error e => .error e
        | .ok (rest, c2) => .ok (op :: rest, c2)

/-- `Block::from_bytes_compact`: header (cursor checked against
`max_block_size`), operation count in bounded big-endian min-width form
(cursor checked again), then the operations (cursor checked after each). -/
def Block.from_bytes_compact (ctx : SerializationContext) (buf : Bytes) :
    Except ModelsError (Block × Nat) :=
  match BlockHeader.from_bytes_compact ctx buf with
  | .error e => .error e
  | .ok (header, d) =>
    if ctx.max_block_size < d then .error (.DeserializeError "block is too large")
    else
      match from_be_bytes_min (buf.drop d) ctx.max_operations_per_block with
      | .error e => .error e
      | .ok (cnt, d2) =>
        let c := d + d2
        if ctx.max_block_size < c then .error (.DeserializeError "block is too large")
        else
          match readOperations ctx buf c cnt with
          | .error e => .error e
          | .ok (ops, c2) => .ok (⟨header, ops⟩, c2)

/-! ## Header methods (`block.rs`) -/

/-- `BlockHeaderContent::compute_hash`: hash of the compact encoding. -/
def BlockHeaderContent.compute_hash (c : BlockHeaderContent) :
    Except ModelsError Hash :=
  match c.to_bytes_compact with
  | .error e => .error e
  | .ok b => .ok (Hash.compute_from b)

/-- `BlockHeader::compute_block_id`: hash of the header's compact
encoding. -/
def BlockHeader.compute_block_id (h : BlockHeader) : Except ModelsError BlockId :=
  match h.to_bytes_compact with
  | .error e => .error e
  | .ok b => .ok ⟨Hash.compute_from b⟩

/-- `BlockHeader::get_signature_message`: `Hash(slot_key_bytes ++ hash)` —
the slot key and the content hash concatenated into a fixed
`SLOT_KEY_SIZE + BLOCK_ID_SIZE_BYTES` buffer, then rehashed. -/
def BlockHeader.get_signature_message (slot : Slot) (h : Hash) : Hash :=
  Hash.compute_from (slot.to_bytes_key ++ h.to_bytes)

/-- `BlockHeader::verify_slot_hash_signature`: check that a `[slot, hash]`
pair was signed by `public_key`. -/
def BlockHeader.verify_slot_hash_signature (slot : Slot) (h : Hash)
    (signature : Signature) (public_key : PublicKey) : Except ModelsError Unit :=
  verify_signature (BlockHeader.get_signature_message slot h) signature public_key

/-- `BlockHeader::verify_signature`: verify against the content's slot and
creator. -/
def BlockHeader.verify_signature_against (h : BlockHeader) (hsh : Hash) :
    Except ModelsError Unit :=
  BlockHeader.verify_slot_hash_signature h.content.slot hsh h.signature h.content.creator

/-- `BlockHeader::check_signature`: recompute the content hash and verify
the signature. -/
def BlockHeader.check_signature (h : BlockHeader) : Except ModelsError Unit :=
  match h.content.compute_hash with
  | .error e => .error e
  | .ok hsh => h.verify_signature_against hsh

/-- `BlockHeader::new_signed`: sign the double-hash message for the
producer's content and return the block id and the header. -/
def BlockHeader.new_signed (private_key : PrivateKey) (content : BlockHeaderContent) :
    Except ModelsError (BlockId × BlockHeader) :=
  match content.compute_hash with
  | .error e => .error e
  | .ok h =>
    match sign (BlockHeader.get_signature_message content.slot h) private_key with
    | .error e => .error e
    | .ok signature =>
      let header : BlockHeader := ⟨content, signature⟩
      match header.compute_block_id with
      | .error e => .error e
      | .ok block_id => .ok (block_id, header)

/-- `Block::contains_operation`: membership by content-addressed operation
id; an operation in the block whose own id computation fails counts as a
non-match (`unwrap_or(false)`). -/
def Block.contains_operation (b : Block) (op : Operation) :
    Except ModelsError Bool :=
  match op.get_operation_id with
  | .error e => .error e
  | .ok opId =>
    .ok (b.operations.any (fun o =>
      match o.get_operation_id with
      | .ok i => decide (i = opId)
      | .error _ => false))

/-! ## Round-trip lemmas for the nested codecs -/

theorem array_from_slice_append_self (l rest : Bytes) :
    array_from_slice l.length (l ++ rest) = .ok l := by
  unfold array_from_slice
  rw [if_pos (by simp), List.take_left]

theorem drop_append_plus (l1 l2 : Bytes) (k : Nat) :
    (l1 ++ l2).drop (l1.length + k) = l2.drop k := by
  induction l1 with
  | nil => simp
  | cons a t ih => simp [Nat.succ_add, ih]

theorem drop_append_self (l1 l2 : Bytes) : (l1 ++ l2).drop l1.length = l2 := by
  have h0 := drop_append_plus l1 l2 0
  rw [Nat.add_zero, List.drop_zero] at h0
  exact h0

/-- Slot round trip: decoding an encoded slot (with any suffix) recovers the
slot and consumes exactly the encoding. -/
theorem slot_roundtrip (s : Slot) (bs rest : Bytes)
    (henc : s.to_bytes_compact = .ok bs) :
    Slot.from_bytes_compact (bs ++ rest) = .ok (s, bs.length) := by
  unfold Slot.to_bytes_compact at henc
  by_cases h : s.period < 2 ^ 64 ∧ s.thread < 256
  · rw [if_pos h, Except.ok.injEq] at henc
    subst henc
    unfold Slot.from_bytes_compact
    simp only [List.append_assoc, fromVarintBytes_toVarintBytes, drop_append_self,
      List.singleton_append, u8_from_slice, List.length_append, List.length_singleton]
    rw [if_neg (by omega)]
  · rw [if_neg h] at henc
    exact absurd henc (by simp)

/-- Operation-content round trip. -/
theorem operation_content_roundtrip (c : OperationContent) (bs rest : Bytes)
    (hpk : c.sender_public_key.bytes.length = PUBLIC_KEY_SIZE_BYTES)
    (henc : c.to_bytes_compact = .ok bs) :
    OperationContent.from_bytes_compact (bs ++ rest) = .ok (c, bs.length) := by
  unfold OperationContent.to_bytes_compact at henc
  by_cases h : c.fee < 2 ^ 64 ∧ c.expire_period < 2 ^ 64 ∧ c.op_type < 256
  · rw [if_pos h, Except.ok.injEq] at henc
    subst henc
    unfold OperationContent.from_bytes_compact
    simp only [← hpk, List.append_assoc, Nat.add_assoc, fromVarintBytes_toVarintBytes,
      drop_append_plus, drop_append_self, List.drop_zero, array_from_slice_append_self,
      List.singleton_append, u8_from_slice, List.length_append, List.length_singleton]
    rw [if_neg (by omega), if_neg (by omega)]
  · rw [if_neg h] at henc
    exact absurd henc (by simp)

/-- Operation round trip. -/
theorem operation_roundtrip (op : Operation) (bs rest : Bytes)
    (hpk : op.content.sender_public_key.bytes.length = PUBLIC_KEY_SIZE_BYTES)
    (hsig : op.signature.bytes.length = SIGNATURE_SIZE_BYTES)
    (henc : op.to_bytes_compact = .ok bs) :
    Operation.from_bytes_compact (bs ++ rest) = .ok (op, bs.length) := by
  unfold Operation.to_bytes_compact at henc
  cases hc : op.content.to_bytes_compact with
  | error e => rw [hc] at henc; exact absurd henc (by simp)
  | ok cb =>
    rw [hc, Except.ok.injEq] at henc
    subst henc
    unfold Operation.from_bytes_compact
    simp only [List.append_assoc,
      operation_content_roundtrip op.content cb _ hpk hc,
      ← hsig, drop_append_self, array_from_slice_append_self, List.length_append]

/-- Endorsement-content round trip. -/
theorem endorsement_content_roundtrip (c : EndorsementContent)
    (bs rest : Bytes)
    (hpk : c.sender_public_key.bytes.length = PUBLIC_KEY_SIZE_BYTES)
    (hbid : c.endorsed_block.hash.bytes.length = BLOCK_ID_SIZE_BYTES)
    (henc : c.to_bytes_compact = .ok bs) :
    EndorsementContent.from_bytes_compact (bs ++ rest) = .ok (c, bs.length) := by
  unfold EndorsementContent.to_bytes_compact at henc
  cases hs : c.slot.to_bytes_compact with
  | error e => rw [hs] at henc; exact absurd henc (by simp)
  | ok sb =>
    rw [hs] at henc
    dsimp only at henc
    by_cases hidx : c.index < 2 ^ 32
    · rw [if_pos hidx, Except.ok.injEq] at henc
      subst henc
      unfold EndorsementContent.from_bytes_compact
      simp only [BlockId.to_bytes, Hash.to_bytes, ← hpk, ← hbid, List.append_assoc,
        Nat.add_assoc, array_from_slice_append_self, drop_append_plus,
        drop_append_self, List.drop_zero,
        slot_roundtrip c.slot sb _ hs, fromVarintBytes_toVarintBytes,
        List.length_append]
      rw [if_neg (by omega)]
    · rw [if_neg hidx] at henc
      exact absurd henc (by simp)

/-- Endorsement round trip. -/
theorem endorsement_roundtrip (e : Endorsement) (bs rest : Bytes)
    (hpk : e.content.sender_public_key.bytes.length = PUBLIC_KEY_SIZE_BYTES)
    (hbid : e.content.endorsed_block.hash.bytes.length = BLOCK_ID_SIZE_BYTES)
    (hsig : e.signature.bytes.length = SIGNATURE_SIZE_BYTES)
    (henc : e.to_bytes_compact = .ok bs) :
    Endorsement.from_bytes_compact (bs ++ rest) = .ok (e, bs.length) := by
  unfold Endorsement.to_bytes_compact at henc
  cases hc : e.content.to_bytes_compact with
  | error er => rw [hc] at henc; exact absurd henc (by simp)
  | ok cb =>
    rw [hc, Except.ok.injEq] at henc
    subst henc
    unfold Endorsement.from_bytes_compact
    simp only [List.append_assoc,
      endorsement_content_roundtrip e.content cb _ hpk hbid hc,
      ← hsig, drop_append_self, array_from_slice_append_self, List.length_append]

/-- The parents loop reads back exactly the encoded list of block ids. -/
theorem readBlockIds_flatten (ids : List BlockId) (buf : Bytes) (cursor : Nat)
    (rest : Bytes)
    (hwf : ∀ i ∈ ids, i.hash.bytes.length = BLOCK_ID_SIZE_BYTES)
    (hbuf : buf.drop cursor = (ids.map BlockId.to_bytes).flatten ++ rest) :
    readBlockIds buf cursor ids.length =
      .ok (ids, cursor + BLOCK_ID_SIZE_BYTES * ids.length) := by
  induction ids generalizing cursor rest with
  | nil => simp [readBlockIds]
  | cons i t ih =>
    have hi : i.hash.bytes.length = BLOCK_ID_SIZE_BYTES := hwf i (by simp)
    have ht : ∀ j ∈ t, j.hash.bytes.length = BLOCK_ID_SIZE_BYTES :=
      fun j hj => hwf j (by simp [hj])
    rw [List.map_cons, List.flatten_cons, List.append_assoc] at hbuf
    have hdrop : buf.drop (cursor + BLOCK_ID_SIZE_BYTES)
        = (t.map BlockId.to_bytes).flatten ++ rest := by
      rw [← List.drop_drop, hbuf]
      unfold BlockId.to_bytes Hash.to_bytes
      rw [← hi, drop_append_self]
    rw [List.length_cons, readBlockIds, hbuf]
    unfold BlockId.to_bytes Hash.to_bytes
    rw [← hi, array_from_slice_append_self]
    dsimp only [BlockId.from_bytes, Hash.from_bytes]
    rw [hi, ih (cursor + BLOCK_ID_SIZE_BYTES) rest ht hdrop]
    dsimp only
    rw [Except.ok.injEq, Prod.mk.injEq]
    exact ⟨rfl, by ring⟩

/-- The endorsements loop reads back exactly the encoded endorsement list. -/
theorem readEndorsements_encodeEndorsements (es : List Endorsement) (buf : Bytes)
    (cursor : Nat) (rest ebs : Bytes)
    (hwf : ∀ e ∈ es, e.content.sender_public_key.bytes.length = PUBLIC_KEY_SIZE_BYTES ∧
      e.content.endorsed_block.hash.bytes.length = BLOCK_ID_SIZE_BYTES ∧
      e.signature.bytes.length = SIGNATURE_SIZE_BYTES)
    (henc : encodeEndorsements es = .ok ebs)
    (hbuf : buf.drop cursor = ebs ++ rest) :
    readEndorsements buf cursor es.length = .ok (es, cursor + ebs.length) := by
  induction es generalizing cursor rest ebs with
  | nil =>
    unfold encodeEndorsements at henc
    rw [Except.ok.injEq] at henc
    subst henc
    simp [readEndorsements]
  | cons e t ih =>
    unfold encodeEndorsements at henc
    cases he : e.to_bytes_compact with
    | error er => rw [he] at henc; exact absurd henc (by simp)
    | ok eb =>
      rw [he] at henc
      cases hte : encodeEndorsements t with
      | error er => rw [hte] at henc; exact absurd henc (by simp)
      | ok tb =>
        rw [hte] at henc
        dsimp only at henc
        rw [Except.ok.injEq] at henc
        subst henc
        obtain ⟨hpk, hbid, hsig⟩ := hwf e (by simp)
        have hwt : ∀ x ∈ t, x.content.sender_public_key.bytes.length = PUBLIC_KEY_SIZE_BYTES ∧
            x.content.endorsed_block.hash.bytes.length = BLOCK_ID_SIZE_BYTES ∧
            x.signature.bytes.length = SIGNATURE_SIZE_BYTES :=
          fun x hx => hwf x (by simp [hx])
        rw [List.append_assoc] at hbuf
        have hdrop : buf.drop (cursor + eb.length) = tb ++ rest := by
          rw [← List.drop_drop, hbuf, drop_append_self]
        rw [List.length_cons, readEndorsements, hbuf,
          endorsement_roundtrip e eb _ hpk hbid hsig he]
        dsimp only
        rw [ih (cursor + eb.length) rest tb hwt hte hdrop]
        dsimp only
        rw [Except.ok.injEq, Prod.mk.injEq]
        exact ⟨rfl, by rw [List.length_append]; ring⟩

/-- The operations loop reads back exactly the encoded operation list, and
never trips the running size cap when the final cursor stays within it. -/
theorem readOperations_encodeOperations (ctx : SerializationContext)
    (ops : List Operation) (buf : Bytes) (cursor : Nat) (rest obs : Bytes)
    (hwf : ∀ op ∈ ops, op.content.sender_public_key.bytes.length = PUBLIC_KEY_SIZE_BYTES ∧
      op.signature.bytes.length = SIGNATURE_SIZE_BYTES)
    (henc : encodeOperations ops = .ok obs)
    (hbuf : buf.drop cursor = obs ++ rest)
    (hcap : cursor + obs.length ≤ ctx.max_block_size) :
    readOperations ctx buf cursor ops.length = .ok (ops, cursor + obs.length) := by
  induction ops generalizing cursor rest obs with
  | nil =>
    unfold encodeOperations at henc
    rw [Except.ok.injEq] at henc
    subst henc
    simp [readOperations]
  | cons op t ih =>
    unfold encodeOperations at henc
    cases ho : op.to_bytes_compact with
    | error er => rw [ho] at henc; exact absurd henc (by simp)
    | ok ob =>
      rw [ho] at henc
      cases hte : encodeOperations t with
      | error er => rw [hte] at henc; exact absurd henc (by simp)
      | ok tb =>
        rw [hte] at henc
        dsimp only at henc
        rw [Except.ok.injEq] at henc
        subst henc
        obtain ⟨hpk, hsig⟩ := hwf op (by simp)
        have hwt : ∀ x ∈ t, x.content.sender_public_key.bytes.length = PUBLIC_KEY_SIZE_BYTES ∧
            x.signature.bytes.length = SIGNATURE_SIZE_BYTES :=
          fun x hx => hwf x (by simp [hx])
        rw [List.append_assoc] at hbuf
        have hdrop : buf.drop (cursor + ob.length) = tb ++ rest := by
          rw [← List.drop_drop, hbuf, drop_append_self]
        have hlen : (ob ++ tb).length = ob.length + tb.length := List.length_append ob tb
        rw [List.length_cons, readOperations, hbuf,
          operation_roundtrip op ob _ hpk hsig ho]
        dsimp only
        rw [if_neg (by omega)]
        rw [ih (cursor + ob.length) rest tb hwt hte hdrop (by omega)]
        dsimp only
        rw [Except.ok.injEq, Prod.mk.injEq]
        exact ⟨rfl, by omega⟩

theorem flatten_map_to_bytes_length (ids : List BlockId)
    (hwf : ∀ i ∈ ids, i.hash.bytes.length = BLOCK_ID_SIZE_BYTES) :
    ((ids.map BlockId.to_bytes).flatten).length = BLOCK_ID_SIZE_BYTES * ids.length := by
  induction ids with
  | nil => simp
  | cons i t ih =>
    have hi := hwf i (by simp)
    have ht := ih (fun j hj => hwf j (by simp [hj]))
    simp only [List.map_cons, List.flatten_cons, List.length_append, ht,
      BlockId.to_bytes, Hash.to_bytes, hi, List.length_cons]
    ring

/-- Shorthand for the well-formedness of an endorsement's fixed-width
fields. -/
def WfEndorsement (e : Endorsement) : Prop :=
  e.content.sender_public_key.bytes.length = PUBLIC_KEY_SIZE_BYTES ∧
    e.content.endorsed_block.hash.bytes.length = BLOCK_ID_SIZE_BYTES ∧
    e.signature.bytes.length = SIGNATURE_SIZE_BYTES

/-- Header-content round trip: under the structural constraints the decoder
actually enforces (parents empty or exactly `thread_count`, endorsement
count within the cap, fixed-width fields of the right byte length), decoding
an encoded header content recovers it exactly. -/
theorem header_content_roundtrip (ctx : SerializationContext)
    (c : BlockHeaderContent) (bs rest : Bytes)
    (hcr : c.creator.bytes.length = PUBLIC_KEY_SIZE_BYTES)
    (hmr : c.operation_merkle_root.bytes.length = HASH_SIZE_BYTES)
    (hpar : c.parents = [] ∨ c.parents.length = ctx.thread_count)
    (hparwf : ∀ p ∈ c.parents, p.hash.bytes.length = BLOCK_ID_SIZE_BYTES)
    (hewf : ∀ e ∈ c.endorsements, WfEndorsement e)
    (hecnt : c.endorsements.length ≤ ctx.endorsement_count)
    (henc : c.to_bytes_compact = .ok bs) :
    BlockHeaderContent.from_bytes_compact ctx (bs ++ rest) = .ok (c, bs.length) := by
  unfold BlockHeaderContent.to_bytes_compact at henc
  cases hs : c.slot.to_bytes_compact with
  | error e => rw [hs] at henc; exact absurd henc (by simp)
  | ok slotB =>
    rw [hs] at henc
    dsimp only at henc
    by_cases hc32 : 2 ^ 32 ≤ c.endorsements.length
    · rw [if_pos hc32] at henc
      exact absurd henc (by simp)
    · rw [if_neg hc32] at henc
      cases hee : encodeEndorsements c.endorsements with
      | error e => rw [hee] at henc; exact absurd henc (by simp)
      | ok endB =>
        rw [hee] at henc
        dsimp only at henc
        rw [Except.ok.injEq] at henc
        subst henc
        by_cases hemp : c.parents.isEmpty
        · -- no parents: flag byte 0
          have hp : c.parents = [] := List.isEmpty_iff.mp hemp
          have hbuf : (c.creator.bytes ++ slotB ++
              (if c.parents.isEmpty then [0] else [1]) ++
              (c.parents.map BlockId.to_bytes).flatten ++
              c.operation_merkle_root.to_bytes ++
              toVarintBytes c.endorsements.length ++ endB) ++ rest
              = c.creator.bytes ++ (slotB ++ ((0 : Nat) ::
                (c.operation_merkle_root.bytes ++
                  (toVarintBytes c.endorsements.length ++ (endB ++ rest))))) := by
            simp [hp, Hash.to_bytes]
          rw [hbuf]
          set B : Bytes := c.creator.bytes ++ (slotB ++ ((0 : Nat) ::
            (c.operation_merkle_root.bytes ++
              (toVarintBytes c.endorsements.length ++ (endB ++ rest))))) with hB
          have h1 : array_from_slice PUBLIC_KEY_SIZE_BYTES B = .ok c.creator.bytes := by
            rw [hB, ← hcr, array_from_slice_append_self]
          have h2 : Slot.from_bytes_compact (B.drop PUBLIC_KEY_SIZE_BYTES)
              = .ok (c.slot, slotB.length) := by
            rw [hB, ← hcr, drop_append_self]
            exact slot_roundtrip _ _ _ hs
          have hd3 : B.drop (PUBLIC_KEY_SIZE_BYTES + slotB.length)
              = (0 : Nat) :: (c.operation_merkle_root.bytes ++
                (toVarintBytes c.endorsements.length ++ (endB ++ rest))) := by
            rw [hB, ← hcr, drop_append_plus, drop_append_self]
          have h3 : u8_from_slice (B.drop (PUBLIC_KEY_SIZE_BYTES + slotB.length))
              = .ok 0 := by rw [hd3]; rfl
          have hd4 : B.drop (PUBLIC_KEY_SIZE_BYTES + slotB.length + 1)
              = c.operation_merkle_root.bytes ++
                (toVarintBytes c.endorsements.length ++ (endB ++ rest)) := by
            rw [show PUBLIC_KEY_SIZE_BYTES + slotB.length + 1
              = (PUBLIC_KEY_SIZE_BYTES + slotB.length) + 1 from rfl,
              ← List.drop_drop, hd3, List.drop_succ_cons, List.drop_zero]
          have h4 : array_from_slice HASH_SIZE_BYTES
              (B.drop (PUBLIC_KEY_SIZE_BYTES + slotB.length + 1))
              = .ok c.operation_merkle_root.bytes := by
            rw [hd4, ← hmr, array_from_slice_append_self]
          have hd5 : B.drop (PUBLIC_KEY_SIZE_BYTES + slotB.length + 1 + HASH_SIZE_BYTES)
              = toVarintBytes c.endorsements.length ++ (endB ++ rest) := by
            rw [← List.drop_drop, hd4, ← hmr, drop_append_self]
          have h5 : fromVarintBytesBounded
              (B.drop (PUBLIC_KEY_SIZE_BYTES + slotB.length + 1 + HASH_SIZE_BYTES))
              ctx.endorsement_count
              = .ok (c.endorsements.length, (toVarintBytes c.endorsements.length).length) := by
            rw [hd5]
            unfold fromVarintBytesBounded
            rw [fromVarintBytes_toVarintBytes]
            dsimp only
            rw [if_neg (by omega), if_neg (by omega)]
          have hd6 : B.drop (PUBLIC_KEY_SIZE_BYTES + slotB.length + 1 + HASH_SIZE_BYTES
              + (toVarintBytes c.endorsements.length).length) = endB ++ rest := by
            rw [← List.drop_drop, hd5, drop_append_self]
          have h6 : readEndorsements B (PUBLIC_KEY_SIZE_BYTES + slotB.length + 1
              + HASH_SIZE_BYTES + (toVarintBytes c.endorsements.length).length)
              c.endorsements.length
              = .ok (c.endorsements, PUBLIC_KEY_SIZE_BYTES + slotB.length + 1
                + HASH_SIZE_BYTES + (toVarintBytes c.endorsements.length).length
                + endB.length) :=
            readEndorsements_encodeEndorsements c.endorsements B _ rest endB hewf hee hd6
          unfold BlockHeaderContent.from_bytes_compact
          simp only [h1, h2, h3]
          rw [if_neg (show ¬ ((0 : Nat) = 1) by omega)]
          simp only [ite_true, h4, h5, h6]
          rw [Except.ok.injEq, Prod.mk.injEq]
          constructor
          · have hc : BlockHeaderContent.mk c.creator c.slot [] c.operation_merkle_root
                c.endorsements = c := by rw [← hp]
            exact hc
          · simp only [hp, List.isEmpty_nil, eq_self_iff_true, ite_true,
              List.map_nil, List.flatten_nil, List.append_nil,
              List.length_append, List.length_nil, List.length_cons,
              Hash.to_bytes, hcr, hmr]
            try omega
        · -- parents present: flag byte 1, exactly thread_count entries
          have hp : c.parents ≠ [] := by
            intro hcon
            rw [hcon] at hemp
            exact hemp rfl
          have hlen : c.parents.length = ctx.thread_count := by
            rcases hpar with hnil | hl
            · exact absurd hnil hp
            · exact hl
          have hflag : (if c.parents.isEmpty then ([0] : Bytes) else [1]) = [1] := by
            rw [if_neg hemp]
          have hbuf : (c.creator.bytes ++ slotB ++
              (if c.parents.isEmpty then [0] else [1]) ++
              (c.parents.map BlockId.to_bytes).flatten ++
              c.operation_merkle_root.to_bytes ++
              toVarintBytes c.endorsements.length ++ endB) ++ rest
              = c.creator.bytes ++ (slotB ++ ((1 : Nat) ::
                ((c.parents.map BlockId.to_bytes).flatten ++
                  (c.operation_merkle_root.bytes ++
                    (toVarintBytes c.endorsements.length ++ (endB ++ rest)))))) := by
            rw [hflag]
            simp [Hash.to_bytes]
          rw [hbuf]
          set B : Bytes := c.creator.bytes ++ (slotB ++ ((1 : Nat) ::
            ((c.parents.map BlockId.to_bytes).flatten ++
              (c.operation_merkle_root.bytes ++
                (toVarintBytes c.endorsements.length ++ (endB ++ rest)))))) with hB
          have h1 : array_from_slice PUBLIC_KEY_SIZE_BYTES B = .ok c.creator.bytes := by
            rw [hB, ← hcr, array_from_slice_append_self]
          have h2 : Slot.from_bytes_compact (B.drop PUBLIC_KEY_SIZE_BYTES)
              = .ok (c.slot, slotB.length) := by
            rw [hB, ← hcr, drop_append_self]
            exact slot_roundtrip _ _ _ hs
          have hd3 : B.drop (PUBLIC_KEY_SIZE_BYTES + slotB.length)
              = (1 : Nat) :: ((c.parents.map BlockId.to_bytes).flatten ++
                (c.operation_merkle_root.bytes ++
                  (toVarintBytes c.endorsements.length ++ (endB ++ rest)))) := by
            rw [hB, ← hcr, drop_append_plus, drop_append_self]
          have h3 : u8_from_slice (B.drop (PUBLIC_KEY_SIZE_BYTES + slotB.length))
              = .ok 1 := by rw [hd3]; rfl
          have hd4 : B.drop (PUBLIC_KEY_SIZE_BYTES + slotB.length + 1)
              = (c.parents.map BlockId.to_bytes).flatten ++
                (c.operation_merkle_root.bytes ++
                  (toVarintBytes c.endorsements.length ++ (endB ++ rest))) := by
            rw [show PUBLIC_KEY_SIZE_BYTES + slotB.length + 1
              = (PUBLIC_KEY_SIZE_BYTES + slotB.length) + 1 from rfl,
              ← List.drop_drop, hd3, List.drop_succ_cons, List.drop_zero]
          have h35 : readBlockIds B (PUBLIC_KEY_SIZE_BYTES + slotB.length + 1)
              ctx.thread_count
              = .ok (c.parents, PUBLIC_KEY_SIZE_BYTES + slotB.length + 1
                + BLOCK_ID_SIZE_BYTES * c.parents.length) := by
            rw [← hlen]
            exact readBlockIds_flatten c.parents B _ _ hparwf hd4
          have hflatlen := flatten_map_to_bytes_length c.parents hparwf
          have hd45 : B.drop (PUBLIC_KEY_SIZE_BYTES + slotB.length + 1
              + BLOCK_ID_SIZE_BYTES * c.parents.length)
              = c.operation_merkle_root.bytes ++
                (toVarintBytes c.endorsements.length ++ (endB ++ rest)) := by
            rw [← List.drop_drop, hd4, ← hflatlen, drop_append_self]
          have h4 : array_from_slice HASH_SIZE_BYTES
              (B.drop (PUBLIC_KEY_SIZE_BYTES + slotB.length + 1
                + BLOCK_ID_SIZE_BYTES * c.parents.length))
              = .ok c.operation_merkle_root.bytes := by
            rw [hd45, ← hmr, array_from_slice_append_self]
          have hd5 : B.drop (PUBLIC_KEY_SIZE_BYTES + slotB.length + 1
              + BLOCK_ID_SIZE_BYTES * c.parents.length + HASH_SIZE_BYTES)
              = toVarintBytes c.endorsements.length ++ (endB ++ rest) := by
            rw [← List.drop_drop, hd45, ← hmr, drop_append_self]
          have h5 : fromVarintBytesBounded
              (B.drop (PUBLIC_KEY_SIZE_BYTES + slotB.length + 1
                + BLOCK_ID_SIZE_BYTES * c.parents.length + HASH_SIZE_BYTES))
              ctx.endorsement_count
              = .ok (c.endorsements.length, (toVarintBytes c.endorsements.length).length) := by
            rw [hd5]
            unfold fromVarintBytesBounded
            rw [fromVarintBytes_toVarintBytes]
            dsimp only
            rw [if_neg (by omega), if_neg (by omega)]
          have hd6 : B.drop (PUBLIC_KEY_SIZE_BYTES + slotB.length + 1
              + BLOCK_ID_SIZE_BYTES * c.parents.length + HASH_SIZE_BYTES
              + (toVarintBytes c.endorsements.length).length) = endB ++ rest := by
            rw [← List.drop_drop, hd5, drop_append_self]
          have h6 : readEndorsements B (PUBLIC_KEY_SIZE_BYTES + slotB.length + 1
              + BLOCK_ID_SIZE_BYTES * c.parents.length + HASH_SIZE_BYTES
              + (toVarintBytes c.endorsements.length).length)
              c.endorsements.length
              = .ok (c.endorsements, PUBLIC_KEY_SIZE_BYTES + slotB.length + 1
                + BLOCK_ID_SIZE_BYTES * c.parents.length + HASH_SIZE_BYTES
                + (toVarintBytes c.endorsements.length).length + endB.length) :=
            readEndorsements_encodeEndorsements c.endorsements B _ rest endB hewf hee hd6
          unfold BlockHeaderContent.from_bytes_compact
          simp only [h1, h2, h3, ite_true, h35, h4, h5, h6]
          rw [Except.ok.injEq, Prod.mk.injEq]
          constructor
          · rfl
          · simp only [hflag, hflatlen, List.length_append, List.length_nil,
              List.length_cons, Hash.to_bytes, hcr, hmr]
            try omega

/-- Block-header round trip. -/
theorem block_header_roundtrip (ctx : SerializationContext)
    (h : BlockHeader) (bs rest : Bytes)
    (hcr : h.content.creator.bytes.length = PUBLIC_KEY_SIZE_BYTES)
    (hmr : h.content.operation_merkle_root.bytes.length = HASH_SIZE_BYTES)
    (hpar : h.content.parents = [] ∨ h.content.parents.length = ctx.thread_count)
    (hparwf : ∀ p ∈ h.content.parents, p.hash.bytes.length = BLOCK_ID_SIZE_BYTES)
    (hewf : ∀ e ∈ h.content.endorsements, WfEndorsement e)
    (hecnt : h.content.endorsements.length ≤ ctx.endorsement_count)
    (hsig : h.signature.bytes.length = SIGNATURE_SIZE_BYTES)
    (henc : h.to_bytes_compact = .ok bs) :
    BlockHeader.from_bytes_compact ctx (bs ++ rest) = .ok (h, bs.length) := by
  unfold BlockHeader.to_bytes_compact at henc
  cases hc : h.content.to_bytes_compact with
  | error e => rw [hc] at henc; exact absurd henc (by simp)
  | ok cb =>
    rw [hc, Except.ok.injEq] at henc
    subst henc
    unfold BlockHeader.from_bytes_compact
    simp only [Signature.to_bytes, List.append_assoc,
      header_content_roundtrip ctx h.content cb _ hcr hmr hpar
        hparwf hewf hecnt hc,
      ← hsig, drop_append_self, array_from_slice_append_self, List.length_append]

/-- Block round trip (`decode (encode b) = ok (b, len(encode b))`), under the
structural constraints the decoder enforces: parents empty or exactly
`thread_count`, endorsement count within the cap, fixed-width fields of the
right byte length, and total encoded size within `max_block_size`. -/
theorem block_roundtrip (ctx : SerializationContext) (b : Block)
    (bs : Bytes)
    (hcr : b.header.content.creator.bytes.length = PUBLIC_KEY_SIZE_BYTES)
    (hmr : b.header.content.operation_merkle_root.bytes.length = HASH_SIZE_BYTES)
    (hpar : b.header.content.parents = [] ∨
      b.header.content.parents.length = ctx.thread_count)
    (hparwf : ∀ p ∈ b.header.content.parents, p.hash.bytes.length = BLOCK_ID_SIZE_BYTES)
    (hewf : ∀ e ∈ b.header.content.endorsements, WfEndorsement e)
    (hecnt : b.header.content.endorsements.length ≤ ctx.endorsement_count)
    (hsig : b.header.signature.bytes.length = SIGNATURE_SIZE_BYTES)
    (hops : ∀ op ∈ b.operations,
      op.content.sender_public_key.bytes.length = PUBLIC_KEY_SIZE_BYTES ∧
        op.signature.bytes.length = SIGNATURE_SIZE_BYTES)
    (henc : Block.to_bytes_compact ctx b = .ok bs)
    (hsize : bs.length ≤ ctx.max_block_size) :
    Block.from_bytes_compact ctx bs = .ok (b, bs.length) := by
  unfold Block.to_bytes_compact at henc
  cases hh : b.header.to_bytes_compact with
  | error e => rw [hh] at henc; exact absurd henc (by simp)
  | ok hb =>
    rw [hh] at henc
    dsimp only at henc
    by_cases h32 : 2 ^ 32 ≤ b.operations.length
    · rw [if_pos h32] at henc
      exact absurd henc (by simp)
    · rw [if_neg h32] at henc
      cases hcnt : to_be_bytes_min b.operations.length ctx.max_operations_per_block with
      | error e => rw [hcnt] at henc; exact absurd henc (by simp)
      | ok cntB =>
        rw [hcnt] at henc
        cases hoe : encodeOperations b.operations with
        | error e => rw [hoe] at henc; exact absurd henc (by simp)
        | ok opsB =>
          rw [hoe] at henc
          dsimp only at henc
          rw [Except.ok.injEq] at henc
          subst henc
          obtain ⟨hbe, hcntlen⟩ := from_be_bytes_min_roundtrip b.operations.length
            ctx.max_operations_per_block (opsB) cntB hcnt
          rw [List.length_append, List.length_append] at hsize
          have hhdr : BlockHeader.from_bytes_compact ctx (hb ++ cntB ++ opsB)
              = .ok (b.header, hb.length) := by
            rw [List.append_assoc]
            exact block_header_roundtrip ctx b.header hb _ hcr hmr hpar
              hparwf hewf hecnt hsig hh
          have hdropd : (hb ++ cntB ++ opsB).drop hb.length = cntB ++ opsB := by
            rw [List.append_assoc, drop_append_self]
          have hbe2 : from_be_bytes_min ((hb ++ cntB ++ opsB).drop hb.length)
              ctx.max_operations_per_block
              = .ok (b.operations.length, byteWidth ctx.max_operations_per_block) := by
            rw [hdropd]; exact hbe
          have hdropops : (hb ++ cntB ++ opsB).drop
              (hb.length + byteWidth ctx.max_operations_per_block) = opsB ++ [] := by
            rw [List.append_assoc, drop_append_plus, ← hcntlen, drop_append_self,
              List.append_nil]
          have hro : readOperations ctx (hb ++ cntB ++ opsB)
              (hb.length + byteWidth ctx.max_operations_per_block) b.operations.length
              = .ok (b.operations, hb.length + byteWidth ctx.max_operations_per_block
                + opsB.length) :=
            readOperations_encodeOperations ctx b.operations _ _ [] opsB hops hoe
              hdropops (by omega)
          unfold Block.from_bytes_compact
          simp only [hhdr, hbe2, hro]
          rw [if_neg (by omega), if_neg (by omega)]
          rw [Except.ok.injEq, Prod.mk.injEq]
          refine ⟨rfl, ?_⟩
          simp only [List.length_append]
          omega

/-! ## Protocol worker

Modelled from the spec: the worker's per-peer knowledge tracking, the
block-info map, and the ingress/egress handlers used by the claims.  The
worker source itself is not part of the embedded tree (only its test
scenarios are), so these definitions follow §4.3–§4.4 of the specification:
knowledge sets are per-peer sets of object ids (the LRU bound is a capacity
tuning parameter and is not modelled), `propagate_operations` sends each
peer the subset of operations it does not know and then marks them known,
a received block is validated (header signature, per-operation and
per-endorsement signatures, merkle root) before populating the block-info
map, and a received header marks the header's id known and joins against
the block-info map to promote operation/endorsement knowledge. -/

/-- Peer handle. -/
abbrev NodeId := Nat

/-- Per-peer knowledge sets (spec §4.3). -/
structure NodeInfo where
  known_blocks : List BlockId
  known_operations : List OperationId
  known_endorsements : List EndorsementId
deriving DecidableEq, Repr

/-- Worker state: per-peer knowledge, the block-info map
(`block_id → (operations, endorsements)`), and the set of operation ids
already surfaced to the pool. -/
structure WorkerState where
  peers : List (NodeId × NodeInfo)
  block_info : List (BlockId × (List OperationId × List EndorsementId))
  checked_operations : List OperationId
deriving DecidableEq, Repr

/-- Network commands emitted by the worker (the subset the claims need);
`SendOperations` carries the propagated id-to-operation map entries. -/
inductive NetworkCommand where
  | SendOperations (node : NodeId) (operations : List (OperationId × Operation))
  | SendBlock (node : NodeId) (block_id : BlockId)
deriving DecidableEq, Repr

/-- Consensus-facing events (the subset the claims need). -/
inductive ProtocolEvent where
  | ReceivedBlockHeader (id : BlockId) (header : BlockHeader)
  | ReceivedBlock (id : BlockId) (block : Block)
deriving DecidableEq, Repr

/-- Pool-facing events. -/
inductive ProtocolPoolEvent where
  | ReceivedOperations (propagate : Bool) (operations : List (OperationId × Operation))
deriving DecidableEq, Repr

/-- First-match association lookup (the embedding of a keyed map). -/
def assocLookup {α β : Type} [DecidableEq α] (a : α) : List (α × β) → Option β
  | [] => none
  | q :: rest => if q.1 = a then some q.2 else assocLookup a rest

/-- The operation ids peer `p` is believed to know. -/
def knownOps (s : WorkerState) (p : NodeId) : List OperationId :=
  match assocLookup p s.peers with
  | some info => info.known_operations
  | none => []

/-- The block ids peer `p` is believed to know. -/
def knownBlocks (s : WorkerState) (p : NodeId) : List BlockId :=
  match assocLookup p s.peers with
  | some info => info.known_blocks
  | none => []

/-- The endorsement ids peer `p` is believed to know. -/
def knownEndos (s : WorkerState) (p : NodeId) : List EndorsementId :=
  match assocLookup p s.peers with
  | some info => info.known_endorsements
  | none => []

/-- The subset of a propagation batch a given peer does not yet know. -/
def opsToSend (ops : List (OperationId × Operation)) (info : NodeInfo) :
    List (OperationId × Operation) :=
  ops.filter (fun q => decide (q.1 ∉ info.known_operations))

/-- Modelled from the spec (§4.4 egress): `propagate_operations` — for each
peer `p`, send the subset of operations whose id is not in
`known_operations[p]` (emitting a command only when the subset is
non-empty), then mark them known. -/
def propagate_operations (s : WorkerState) (ops : List (OperationId × Operation)) :
    WorkerState × List NetworkCommand :=
  ({ s with peers := s.peers.map (fun pq =>
      (pq.1, { pq.2 with known_operations :=
        pq.2.known_operations ++ (opsToSend ops pq.2).map Prod.fst })) },
   s.peers.filterMap (fun pq =>
      let send := opsToSend ops pq.2
      if send = [] then none else some (NetworkCommand.SendOperations pq.1 send)))

/-- Mark the given block, operation and endorsement ids known for peer `p`. -/
def markKnownForPeer (s : WorkerState) (p : NodeId) (bids : List BlockId)
    (oids : List OperationId) (eids : List EndorsementId) : WorkerState :=
  { s with peers := s.peers.map (fun pq =>
      if pq.1 = p then
        (pq.1, { known_blocks := pq.2.known_blocks ++ bids,
                 known_operations := pq.2.known_operations ++ oids,
                 known_endorsements := pq.2.known_endorsements ++ eids })
      else pq) }

/-- Sequence a fallible function over a list (the embedding of the
validation loops). -/
def exceptMap {α β : Type} (f : α → Except ModelsError β) :
    List α → Except ModelsError (List β)
  | [] => .ok []
  | a :: rest =>
    match f a with
    | .error e => .error e
    | .ok b =>
      match exceptMap f rest with
      | .error e => .error e
      | .ok bs => .ok (b :: bs)

/-- Modelled from the spec (glossary): the merkle root of an operation list
is the hash over the concatenated operation-id bytes in list order. -/
def merkleRoot (ids : List OperationId) : Hash :=
  Hash.compute_from ((ids.map (fun i => i.hash.bytes)).flatten)

/-- Modelled from the spec (§4.4 ingress, rules 1 and 4): a received block
is validated — header signature, every operation signature, every
endorsement signature, and the operation merkle root against the header —
and on success the block id and all contained operation/endorsement ids are
marked known for the sender and recorded in the block-info map; any
validation failure leaves the state unchanged. -/
def handle_received_block (s : WorkerState) (p : NodeId) (b : Block) :
    WorkerState × List ProtocolEvent :=
  match b.header.check_signature, b.header.compute_block_id,
      exceptMap Operation.verify_integrity b.operations,
      exceptMap Endorsement.verify_integrity b.header.content.endorsements with
  | .ok _, .ok id, .ok oids, .ok eids =>
    if merkleRoot oids = b.header.content.operation_merkle_root then
      (let s1 := markKnownForPeer s p [id] oids eids
       { s1 with block_info := (id, (oids, eids)) :: s1.block_info },
       [ProtocolEvent.ReceivedBlock id b])
    else (s, [])
  | _, _, _, _ => (s, [])

/-- Modelled from the spec (§4.4 ingress, rules 1 and 5): a received header
is validated; on success the header's block id is marked known for the
sender, and if the block-info map holds a body for that id (recorded from a
previously validated full block, whose operations therefore match the
header's merkle root) all its operation and endorsement ids are marked
known for the sender as well.  If no held body matches, only the block id
becomes known. -/
def handle_received_header (s : WorkerState) (p : NodeId) (h : BlockHeader) :
    WorkerState × List ProtocolEvent :=
  match h.check_signature, h.compute_block_id with
  | .ok _, .ok id =>
    match assocLookup id s.block_info with
    | some (oids, eids) =>
      (markKnownForPeer s p [id] oids eids, [ProtocolEvent.ReceivedBlockHeader id h])
    | none =>
      (markKnownForPeer s p [id] [] [], [ProtocolEvent.ReceivedBlockHeader id h])
  | _, _ => (s, [])

/-- Modelled from the spec (§4.4 ingress): the per-operation step of
`ReceivedOperations` handling — an operation's signature is checked via
`verify_integrity`; a valid operation not already seen (globally or earlier
in the batch) is appended to the new subset; an invalid operation is
silently discarded. -/
def recvStep (s : WorkerState) (acc : List (OperationId × Operation))
    (op : Operation) : List (OperationId × Operation) :=
  match op.verify_integrity with
  | .ok id =>
    if id ∈ s.checked_operations ∨ id ∈ acc.map Prod.fst then acc
    else acc ++ [(id, op)]
  | .error _ => acc

/-- Modelled from the spec (§4.4 ingress): handling of `ReceivedOperations`,
folding `recvStep` over the batch and emitting a single
`propagate = true` pool event for the new valid subset when it is
non-empty. -/
def handle_received_operations (s : WorkerState) (p : NodeId) (ops : List Operation) :
    WorkerState × List ProtocolPoolEvent :=
  let newOps := ops.foldl (recvStep s) []
  let s1 := { s with checked_operations := s.checked_operations ++ newOps.map Prod.fst }
  (markKnownForPeer s1 p [] (newOps.map Prod.fst) [],
   if newOps = [] then [] else [ProtocolPoolEvent.ReceivedOperations true newOps])

/-! ## Worker lemmas -/

theorem assocLookup_mem {α β : Type} [DecidableEq α] (l : List (α × β)) (a : α)
    (v : β) (hnd : (l.map Prod.fst).Nodup) (hm : (a, v) ∈ l) :
    assocLookup a l = some v := by
  induction l with
  | nil => cases hm
  | cons q t ih =>
    rw [List.map_cons, List.nodup_cons] at hnd
    rcases List.mem_cons.mp hm with heq | ht
    · subst heq
      simp [assocLookup]
    · have hne : q.1 ≠ a := by
        intro hq
        exact hnd.1 (hq ▸ (List.mem_map.mpr ⟨(a, v), ht, rfl⟩))
      rw [assocLookup, if_neg hne]
      exact ih hnd.2 ht

theorem assocLookup_map_keyed {α β : Type} [DecidableEq α] (l : List (α × β))
    (F : α × β → α × β) (hkey : ∀ q, (F q).1 = q.1) (a : α) (v : β)
    (hnd : (l.map Prod.fst).Nodup) (hm : (a, v) ∈ l) :
    assocLookup a (l.map F) = some (F (a, v)).2 := by
  induction l with
  | nil => cases hm
  | cons q t ih =>
    rw [List.map_cons, List.nodup_cons] at hnd
    rcases List.mem_cons.mp hm with heq | ht
    · subst heq
      rw [List.map_cons, assocLookup, if_pos (hkey (a, v))]
    · have hne : (F q).1 ≠ a := by
        rw [hkey q]
        intro hq
        exact hnd.1 (hq ▸ (List.mem_map.mpr ⟨(a, v), ht, rfl⟩))
      rw [List.map_cons, assocLookup, if_neg hne]
      exact ih hnd.2 ht

theorem keys_map_keyed {α β : Type} (l : List (α × β)) (F : α × β → α × β)
    (hkey : ∀ q, (F q).1 = q.1) : (l.map F).map Prod.fst = l.map Prod.fst := by
  induction l with
  | nil => rfl
  | cons q t ih => simp [hkey q, ih]

theorem knownOps_propagate (s : WorkerState) (ops : List (OperationId × Operation))
    (p : NodeId) (info : NodeInfo) (hnd : (s.peers.map Prod.fst).Nodup)
    (hp : (p, info) ∈ s.peers) :
    knownOps (propagate_operations s ops).1 p
      = info.known_operations ++ (opsToSend ops info).map Prod.fst := by
  unfold propagate_operations knownOps
  dsimp only
  rw [assocLookup_map_keyed s.peers
    (fun pq => (pq.1, { pq.2 with known_operations :=
      pq.2.known_operations ++ (opsToSend ops pq.2).map Prod.fst }))
    (fun q => rfl) p info hnd hp]

theorem knownOps_markKnown (s : WorkerState) (p : NodeId) (info : NodeInfo)
    (bids : List BlockId) (oids : List OperationId) (eids : List EndorsementId)
    (hnd : (s.peers.map Prod.fst).Nodup) (hp : (p, info) ∈ s.peers) :
    knownOps (markKnownForPeer s p bids oids eids) p
      = info.known_operations ++ oids := by
  unfold markKnownForPeer knownOps
  dsimp only
  rw [assocLookup_map_keyed s.peers
    (fun pq => if pq.1 = p then
        (pq.1, { known_blocks := pq.2.known_blocks ++ bids,
                 known_operations := pq.2.known_operations ++ oids,
                 known_endorsements := pq.2.known_endorsements ++ eids })
      else pq)
    (fun q => by by_cases h : q.1 = p <;> simp [h]) p info hnd hp]
  simp

theorem knownEndos_markKnown (s : WorkerState) (p : NodeId) (info : NodeInfo)
    (bids : List BlockId) (oids : List OperationId) (eids : List EndorsementId)
    (hnd : (s.peers.map Prod.fst).Nodup) (hp : (p, info) ∈ s.peers) :
    knownEndos (markKnownForPeer s p bids oids eids) p
      = info.known_endorsements ++ eids := by
  unfold markKnownForPeer knownEndos
  dsimp only
  rw [assocLookup_map_keyed s.peers
    (fun pq => if pq.1 = p then
        (pq.1, { known_blocks := pq.2.known_blocks ++ bids,
                 known_operations := pq.2.known_operations ++ oids,
                 known_endorsements := pq.2.known_endorsements ++ eids })
      else pq)
    (fun q => by by_cases h : q.1 = p <;> simp [h]) p info hnd hp]
  simp

theorem knownBlocks_markKnown (s : WorkerState) (p : NodeId) (info : NodeInfo)
    (bids : List BlockId) (oids : List OperationId) (eids : List EndorsementId)
    (hnd : (s.peers.map Prod.fst).Nodup) (hp : (p, info) ∈ s.peers) :
    knownBlocks (markKnownForPeer s p bids oids eids) p
      = info.known_blocks ++ bids := by
  unfold markKnownForPeer knownBlocks
  dsimp only
  rw [assocLookup_map_keyed s.peers
    (fun pq => if pq.1 = p then
        (pq.1, { known_blocks := pq.2.known_blocks ++ bids,
                 known_operations := pq.2.known_operations ++ oids,
                 known_endorsements := pq.2.known_endorsements ++ eids })
      else pq)
    (fun q => by by_cases h : q.1 = p <;> simp [h]) p info hnd hp]
  simp

theorem markKnown_mem_peer (s : WorkerState) (p : NodeId) (info : NodeInfo)
    (bids : List BlockId) (oids : List OperationId) (eids : List EndorsementId)
    (hp : (p, info) ∈ s.peers) :
    (p, { known_blocks := info.known_blocks ++ bids,
          known_operations := info.known_operations ++ oids,
          known_endorsements := info.known_endorsements ++ eids : NodeInfo })
      ∈ (markKnownForPeer s p bids oids eids).peers := by
  unfold markKnownForPeer
  dsimp only
  refine List.mem_map.mpr ⟨(p, info), hp, ?_⟩
  rw [if_pos rfl]

theorem markKnown_keys (s : WorkerState) (p : NodeId) (bids : List BlockId)
    (oids : List OperationId) (eids : List EndorsementId) :
    (markKnownForPeer s p bids oids eids).peers.map Prod.fst
      = s.peers.map Prod.fst := by
  unfold markKnownForPeer
  exact keys_map_keyed s.peers _ (fun q => by by_cases h : q.1 = p <;> simp [h])

/-- A peer that does not know an operation in the batch receives a
`SendOperations` command containing it. -/
theorem propagate_operations_sends (s : WorkerState)
    (ops : List (OperationId × Operation)) (p : NodeId) (info : NodeInfo)
    (hp : (p, info) ∈ s.peers) (oid : OperationId) (x : Operation)
    (hmem : (oid, x) ∈ ops) (hunk : oid ∉ info.known_operations) :
    NetworkCommand.SendOperations p (opsToSend ops info)
      ∈ (propagate_operations s ops).2 ∧ (oid, x) ∈ opsToSend ops info := by
  have hin : (oid, x) ∈ opsToSend ops info := by
    unfold opsToSend
    rw [List.mem_filter]
    exact ⟨hmem, by simpa using hunk⟩
  refine ⟨?_, hin⟩
  unfold propagate_operations
  dsimp only
  refine List.mem_filterMap.mpr ⟨(p, info), hp, ?_⟩
  rw [if_neg (List.ne_nil_of_mem hin)]

/-- An id appears in the folded new-operations subset exactly when some
operation of the batch verifies to it and it was not already seen. -/
theorem recvStep_foldl_mem (s : WorkerState) (ops : List Operation) :
    ∀ (acc : List (OperationId × Operation)) (id : OperationId),
      (id ∈ (ops.foldl (recvStep s) acc).map Prod.fst ↔
        id ∈ acc.map Prod.fst ∨
          ((∃ op ∈ ops, op.verify_integrity = .ok id) ∧
            id ∉ s.checked_operations)) := by
  induction ops with
  | nil =>
    intro acc id
    simp
  | cons op t ih =>
    intro acc id
    rw [List.foldl_cons, ih (recvStep s acc op) id]
    unfold recvStep
    cases hv : op.verify_integrity with
    | error e =>
      have hiff : (∃ x ∈ op :: t, x.verify_integrity = .ok id) ↔
          (∃ x ∈ t, x.verify_integrity = .ok id) := by
        constructor
        · rintro ⟨x, hx, hxv⟩
          rcases List.mem_cons.mp hx with rfl | hxt
          · rw [hv] at hxv
            cases hxv
          · exact ⟨x, hxt, hxv⟩
        · rintro ⟨x, hx, hxv⟩
          exact ⟨x, List.mem_cons_of_mem _ hx, hxv⟩
      rw [hiff]
    | ok i =>
      dsimp only
      by_cases hc : i ∈ s.checked_operations ∨ i ∈ acc.map Prod.fst
      · rw [if_pos hc]
        constructor
        · rintro (h | ⟨⟨x, hx, hxv⟩, hnc⟩)
          · exact Or.inl h
          · exact Or.inr ⟨⟨x, List.mem_cons_of_mem _ hx, hxv⟩, hnc⟩
        · rintro (h | ⟨⟨x, hx, hxv⟩, hnc⟩)
          · exact Or.inl h
          · rcases List.mem_cons.mp hx with rfl | hxt
            · rw [hv, Except.ok.injEq] at hxv
              subst hxv
              rcases hc with hcc | hacc
              · exact absurd hcc hnc
              · exact Or.inl hacc
            · exact Or.inr ⟨⟨x, hxt, hxv⟩, hnc⟩
      · rw [if_neg hc]
        push_neg at hc
        have hmap : (acc ++ [(i, op)]).map Prod.fst = acc.map Prod.fst ++ [i] := by
          simp
        rw [hmap]
        constructor
        · rintro (h | ⟨⟨x, hx, hxv⟩, hnc⟩)
          · rcases List.mem_append.mp h with hacc | hi
            · exact Or.inl hacc
            · have hid : id = i := by simpa using hi
              subst hid
              exact Or.inr ⟨⟨op, List.mem_cons_self _ _, hv⟩, hc.1⟩
          · exact Or.inr ⟨⟨x, List.mem_cons_of_mem _ hx, hxv⟩, hnc⟩
        · rintro (h | ⟨⟨x, hx, hxv⟩, hnc⟩)
          · exact Or.inl (List.mem_append.mpr (Or.inl h))
          · rcases List.mem_cons.mp hx with rfl | hxt
            · rw [hv, Except.ok.injEq] at hxv
              subst hxv
              exact Or.inl (List.mem_append.mpr (Or.inr (by simp)))
            · exact Or.inr ⟨⟨x, hxt, hxv⟩, hnc⟩

/-- A batch with no valid operation contributes nothing to the new
subset. -/
theorem recvStep_foldl_invalid (s : WorkerState) (ops : List Operation)
    (h : ∀ op ∈ ops, (op.verify_integrity).isOk = false) :
    ∀ acc, ops.foldl (recvStep s) acc = acc := by
  induction ops with
  | nil => intro acc; rfl
  | cons op t ih =>
    intro acc
    rw [List.foldl_cons]
    have hstep : recvStep s acc op = acc := by
      unfold recvStep
      cases hv : op.verify_integrity with
      | error e => rfl
      | ok i =>
        have := h op (List.mem_cons_self _ _)
        rw [hv] at this
        cases this
    rw [hstep]
    exact ih (fun x hx => h x (List.mem_cons_of_mem _ hx)) acc

/-- Every emitted `SendOperations` command is the not-yet-known subset for
one of the connected peers. -/
theorem sendOperations_mem_elim (s : WorkerState)
    (ops : List (OperationId × Operation)) (p : NodeId)
    (l : List (OperationId × Operation))
    (hcmd : NetworkCommand.SendOperations p l ∈ (propagate_operations s ops).2) :
    ∃ info, (p, info) ∈ s.peers ∧ l = opsToSend ops info := by
  unfold propagate_operations at hcmd
  dsimp only at hcmd
  obtain ⟨pq, hpq, hf⟩ := List.mem_filterMap.mp hcmd
  by_cases hsend : opsToSend ops pq.2 = []
  · rw [if_pos hsend] at hf
    cases hf
  · rw [if_neg hsend, Option.some.injEq] at hf
    rw [NetworkCommand.SendOperations.injEq] at hf
    refine ⟨pq.2, ?_, hf.2.symm⟩
    have hpq2 : (pq.1, pq.2) ∈ s.peers := hpq
    rw [hf.1] at hpq2
    exact hpq2

/-- A peer already knowing an operation's id never receives it from
`propagate_operations`. -/
theorem propagate_no_send_of_known (s : WorkerState)
    (hnd : (s.peers.map Prod.fst).Nodup)
    (ops : List (OperationId × Operation)) (p : NodeId)
    (l : List (OperationId × Operation))
    (hcmd : NetworkCommand.SendOperations p l ∈ (propagate_operations s ops).2)
    (id : OperationId) (x : Operation) (hk : id ∈ knownOps s p) :
    (id, x) ∉ l := by
  obtain ⟨info, hp, hl⟩ := sendOperations_mem_elim s ops p l hcmd
  have hlook : assocLookup p s.peers = some info := assocLookup_mem _ _ _ hnd hp
  unfold knownOps at hk
  rw [hlook] at hk
  subst hl
  intro hmem
  unfold opsToSend at hmem
  rw [List.mem_filter] at hmem
  have := of_decide_eq_true hmem.2
  exact this hk

/-- Every operation sent by `propagate_operations` is known to the target
peer in the post-state. -/
theorem propagate_marks_sent (s : WorkerState)
    (hnd : (s.peers.map Prod.fst).Nodup)
    (ops : List (OperationId × Operation)) (p : NodeId)
    (l : List (OperationId × Operation))
    (hcmd : NetworkCommand.SendOperations p l ∈ (propagate_operations s ops).2)
    (id : OperationId) (x : Operation) (hmem : (id, x) ∈ l) :
    id ∈ knownOps (propagate_operations s ops).1 p := by
  obtain ⟨info, hp, hl⟩ := sendOperations_mem_elim s ops p l hcmd
  rw [knownOps_propagate s ops p info hnd hp]
  subst hl
  exact List.mem_append.mpr (Or.inr (List.mem_map.mpr ⟨(id, x), hmem, rfl⟩))

theorem mem_map_fst {l : List (OperationId × Operation)} {id : OperationId} :
    id ∈ l.map Prod.fst ↔ ∃ x, (id, x) ∈ l := by
  constructor
  · intro h
    obtain ⟨⟨a, b⟩, hm, he⟩ := List.mem_map.mp h
    cases he
    exact ⟨b, hm⟩
  · rintro ⟨x, hm⟩
    exact List.mem_map.mpr ⟨(id, x), hm, rfl⟩

/-! ## Claim theorems and witnesses -/

/-- **C1.** For every peer `p` and operation `x`: a `propagate_operations`
call never emits a `SendOperations` targeting `p` containing `x` while `x`'s
id is already in `p`'s knowledge set at the moment of the call, and after
any send of `x` to `p` the id is in `p`'s knowledge set of the post-state. -/
theorem claim_c1_propagate_respects_knowledge (s : WorkerState)
    (hnd : (s.peers.map Prod.fst).Nodup)
    (ops : List (OperationId × Operation)) (p : NodeId)
    (l : List (OperationId × Operation))
    (hcmd : NetworkCommand.SendOperations p l ∈ (propagate_operations s ops).2)
    (id : OperationId) (x : Operation) :
    (id ∈ knownOps s p → (id, x) ∉ l) ∧
      ((id, x) ∈ l → id ∈ knownOps (propagate_operations s ops).1 p) :=
  ⟨fun hk => propagate_no_send_of_known s hnd ops p l hcmd id x hk,
   fun hm => propagate_marks_sent s hnd ops p l hcmd id x hm⟩

/-- **C2.** After the worker handles `ReceivedHeader(p, h)`: if it already
holds (in the block-info map, populated only from previously validated full
blocks, whose operations therefore match the header's merkle root) a body
for the header's block id, every contained operation and endorsement id
becomes known to `p` and a subsequent `propagate_operations` sends none of
them to `p`; if no held body matches, only the block id becomes known to
`p`, the operation knowledge of `p` is unchanged, and `propagate_operations`
does send the still-unknown operations to `p`.  Moreover a full block whose
operations do not match its header's merkle root is rejected without any
state change, so it never populates the block-info map. -/
theorem claim_c2_header_body_knowledge (s : WorkerState)
    (hnd : (s.peers.map Prod.fst).Nodup)
    (p : NodeId) (info : NodeInfo) (hp : (p, info) ∈ s.peers)
    (h : BlockHeader) (id : BlockId)
    (hsig : h.check_signature = .ok ())
    (hid : h.compute_block_id = .ok id) :
    (∀ oids eids, assocLookup id s.block_info = some (oids, eids) →
      (∀ oid ∈ oids, oid ∈ knownOps (handle_received_header s p h).1 p) ∧
      (∀ eid ∈ eids, eid ∈ knownEndos (handle_received_header s p h).1 p) ∧
      (∀ ops l, NetworkCommand.SendOperations p l
          ∈ (propagate_operations (handle_received_header s p h).1 ops).2 →
        ∀ oid ∈ oids, ∀ x, (oid, x) ∉ l)) ∧
    (assocLookup id s.block_info = none →
      knownOps (handle_received_header s p h).1 p = knownOps s p ∧
      id ∈ knownBlocks (handle_received_header s p h).1 p ∧
      (∀ ops oid x, (oid, x) ∈ ops → oid ∉ knownOps s p →
        ∃ l, NetworkCommand.SendOperations p l
            ∈ (propagate_operations (handle_received_header s p h).1 ops).2 ∧
          (oid, x) ∈ l)) ∧
    (∀ b oidsB, exceptMap Operation.verify_integrity b.operations = .ok oidsB →
      merkleRoot oidsB ≠ b.header.content.operation_merkle_root →
      handle_received_block s p b = (s, [])) := by
  refine ⟨?_, ?_, ?_⟩
  · intro oids eids hbi
    have hstate : (handle_received_header s p h).1
        = markKnownForPeer s p [id] oids eids := by
      unfold handle_received_header
      simp only [hsig, hid, hbi]
    refine ⟨?_, ?_, ?_⟩
    · intro oid ho
      rw [hstate, knownOps_markKnown s p info [id] oids eids hnd hp]
      exact List.mem_append.mpr (Or.inr ho)
    · intro eid he
      rw [hstate, knownEndos_markKnown s p info [id] oids eids hnd hp]
      exact List.mem_append.mpr (Or.inr he)
    · intro ops l hcmd oid ho x
      rw [hstate] at hcmd
      have hnd2 : ((markKnownForPeer s p [id] oids eids).peers.map Prod.fst).Nodup := by
        rw [markKnown_keys]
        exact hnd
      have hk : oid ∈ knownOps (markKnownForPeer s p [id] oids eids) p := by
        rw [knownOps_markKnown s p info [id] oids eids hnd hp]
        exact List.mem_append.mpr (Or.inr ho)
      exact propagate_no_send_of_known _ hnd2 ops p l hcmd oid x hk
  · intro hbi
    have hstate : (handle_received_header s p h).1
        = markKnownForPeer s p [id] [] [] := by
      unfold handle_received_header
      simp only [hsig, hid, hbi]
    have hksp : knownOps s p = info.known_operations := by
      unfold knownOps
      rw [assocLookup_mem s.peers p info hnd hp]
    refine ⟨?_, ?_, ?_⟩
    · rw [hstate, knownOps_markKnown s p info [id] [] [] hnd hp,
        List.append_nil, hksp]
    · rw [hstate, knownBlocks_markKnown s p info [id] [] [] hnd hp]
      exact List.mem_append.mpr (Or.inr (by simp))
    · intro ops oid x hmem hunk
      have hmempeer := markKnown_mem_peer s p info [id] [] [] hp
      have hunk2 : oid ∉ (info.known_operations ++ ([] : List OperationId)) := by
        rw [List.append_nil]
        rw [hksp] at hunk
        exact hunk
      have hsend := propagate_operations_sends (markKnownForPeer s p [id] [] [])
        ops p _ hmempeer oid x hmem hunk2
      rw [hstate]
      exact ⟨_, hsend.1, hsend.2⟩
  · intro b oidsB hops hmr2
    unfold handle_received_block
    cases hcs : b.header.check_signature with
    | error e => rfl
    | ok u =>
      cases hcb : b.header.compute_block_id with
      | error e => rfl
      | ok bid =>
        rw [hops]
        cases hend : exceptMap Endorsement.verify_integrity
            b.header.content.endorsements with
        | error e => rfl
        | ok eidsB =>
          dsimp only
          rw [if_neg hmr2]

/-- **C7.** Handling `ReceivedOperations(p, ops)` emits a
`ReceivedOperations{propagate = true}` pool event containing an operation
id exactly when some operation of the batch verifies to that id (signature
valid against the declared sender public key) and the id was not already
seen; a batch with no valid operation (e.g. an operation mutated after
signing) produces no pool event at all. -/
theorem claim_c7_received_operations_filtering (s : WorkerState) (p : NodeId)
    (ops : List Operation) (evts : List ProtocolPoolEvent)
    (heq : (handle_received_operations s p ops).2 = evts) :
    (∀ id : OperationId,
      ((∃ l x, ProtocolPoolEvent.ReceivedOperations true l ∈ evts ∧ (id, x) ∈ l) ↔
        ((∃ op ∈ ops, op.verify_integrity = .ok id) ∧
          id ∉ s.checked_operations))) ∧
    ((∀ op ∈ ops, (op.verify_integrity).isOk = false) → evts = []) := by
  subst heq
  unfold handle_received_operations
  dsimp only
  constructor
  · intro id
    have hfold := recvStep_foldl_mem s ops [] id
    simp only [List.map_nil, List.not_mem_nil, false_or] at hfold
    by_cases hn : ops.foldl (recvStep s) [] = []
    · rw [if_pos hn]
      constructor
      · rintro ⟨l, x, hl, -⟩
        exact absurd hl (List.not_mem_nil _)
      · intro hr
        have : id ∈ (ops.foldl (recvStep s) []).map Prod.fst := hfold.mpr hr
        rw [hn] at this
        exact absurd this (List.not_mem_nil _)
    · rw [if_neg hn]
      constructor
      · rintro ⟨l, x, hl, hmem⟩
        rw [List.mem_singleton, ProtocolPoolEvent.ReceivedOperations.injEq] at hl
        rw [hl.2] at hmem
        exact hfold.mp (mem_map_fst.mpr ⟨x, hmem⟩)
      · intro hr
        obtain ⟨x, hx⟩ := mem_map_fst.mp (hfold.mpr hr)
        exact ⟨ops.foldl (recvStep s) [], x, List.mem_singleton.mpr rfl, hx⟩
  · intro hall
    rw [recvStep_foldl_invalid s ops hall [], if_pos rfl]

/-- The operations loop never moves the cursor past `max_block_size` on
success. -/
theorem readOperations_cursor_le (ctx : SerializationContext) (buf : Bytes) :
    ∀ (k cursor : Nat) (ops : List Operation) (c : Nat),
      cursor ≤ ctx.max_block_size →
      readOperations ctx buf cursor k = .ok (ops, c) →
      c ≤ ctx.max_block_size := by
  intro k
  induction k with
  | zero =>
    intro cursor ops c hle hok
    unfold readOperations at hok
    rw [Except.ok.injEq, Prod.mk.injEq] at hok
    omega
  | succ k ih =>
    intro cursor ops c hle hok
    unfold readOperations at hok
    cases hop : Operation.from_bytes_compact (buf.drop cursor) with
    | error e => rw [hop] at hok; cases hok
    | ok q =>
      rw [hop] at hok
      dsimp only at hok
      by_cases hbig : ctx.max_block_size < cursor + q.2
      · rw [if_pos hbig] at hok
        cases hok
      · rw [if_neg hbig] at hok
        cases hrest : readOperations ctx buf (cursor + q.2) k with
        | error e => rw [hrest] at hok; cases hok
        | ok r =>
          rw [hrest] at hok
          dsimp only at hok
          rw [Except.ok.injEq, Prod.mk.injEq] at hok
          have := ih (cursor + q.2) r.1 r.2 (by omega) (by rw [hrest])
          omega

/-- **C4.** For every input buffer: no block is ever returned with a cursor
beyond `max_block_size` (so a buffer driving any intermediate cursor past
the cap yields no block), and at each checkpoint of
`Block::from_bytes_compact` — after the header, after the operation count,
and after any decoded operation — exceeding `max_block_size` fails with
`DeserializeError "block is too large"`. -/
theorem claim_c4_block_size_cap (ctx : SerializationContext) (buf : Bytes) :
    (∀ b n, Block.from_bytes_compact ctx buf = .ok (b, n) →
      n ≤ ctx.max_block_size) ∧
    (∀ h d, BlockHeader.from_bytes_compact ctx buf = .ok (h, d) →
      ctx.max_block_size < d →
      Block.from_bytes_compact ctx buf
        = .error (.DeserializeError "block is too large")) ∧
    (∀ h d cnt d2, BlockHeader.from_bytes_compact ctx buf = .ok (h, d) →
      d ≤ ctx.max_block_size →
      from_be_bytes_min (buf.drop d) ctx.max_operations_per_block = .ok (cnt, d2) →
      ctx.max_block_size < d + d2 →
      Block.from_bytes_compact ctx buf
        = .error (.DeserializeError "block is too large")) ∧
    (∀ cursor k op dd, Operation.from_bytes_compact (buf.drop cursor) = .ok (op, dd) →
      ctx.max_block_size < cursor + dd →
      readOperations ctx buf cursor (k + 1)
        = .error (.DeserializeError "block is too large")) := by
  refine ⟨?_, ?_, ?_, ?_⟩
  · intro b n hok
    unfold Block.from_bytes_compact at hok
    cases hh : BlockHeader.from_bytes_compact ctx buf with
    | error e => rw [hh] at hok; cases hok
    | ok q =>
      rw [hh] at hok
      dsimp only at hok
      by_cases hbig : ctx.max_block_size < q.2
      · rw [if_pos hbig] at hok
        cases hok
      · rw [if_neg hbig] at hok
        cases hcnt : from_be_bytes_min (buf.drop q.2) ctx.max_operations_per_block with
        | error e => rw [hcnt] at hok; cases hok
        | ok w =>
          rw [hcnt] at hok
          dsimp only at hok
          by_cases hbig2 : ctx.max_block_size < q.2 + w.2
          · rw [if_pos hbig2] at hok
            cases hok
          · rw [if_neg hbig2] at hok
            cases hro : readOperations ctx buf (q.2 + w.2) w.1 with
            | error e => rw [hro] at hok; cases hok
            | ok r =>
              rw [hro] at hok
              dsimp only at hok
              rw [Except.ok.injEq, Prod.mk.injEq] at hok
              have := readOperations_cursor_le ctx buf w.1 (q.2 + w.2) r.1 r.2
                (by omega) (by rw [hro])
              omega
  · intro h d hh hbig
    unfold Block.from_bytes_compact
    rw [hh]
    dsimp only
    rw [if_pos hbig]
  · intro h d cnt d2 hh hle hcnt hbig
    unfold Block.from_bytes_compact
    rw [hh]
    dsimp only
    rw [if_neg (by omega), hcnt]
    dsimp only
    rw [if_pos hbig]
  · intro cursor k op dd hop hbig
    unfold readOperations
    rw [hop]
    dsimp only
    rw [if_pos hbig]

/-- **C5.** An operation count above `max_operations_per_block` (in the
bounded big-endian field after the header) makes `Block::from_bytes_compact`
fail immediately, for every possible continuation of the buffer — i.e.
before any element of the declared collection is decoded; likewise an
endorsement count above the configured cap makes
`BlockHeaderContent::from_bytes_compact` fail immediately for every
continuation. -/
theorem claim_c5_count_bounds (ctx : SerializationContext) :
    (∀ (buf : Bytes) (h : BlockHeader) (d : Nat) (cb rest : Bytes) (v : Nat),
      BlockHeader.from_bytes_compact ctx buf = .ok (h, d) →
      d ≤ ctx.max_block_size →
      buf.drop d = cb ++ rest →
      cb.length = byteWidth ctx.max_operations_per_block →
      beFold cb = v → ctx.max_operations_per_block < v →
      Block.from_bytes_compact ctx buf
        = .error (.DeserializeError "be-min value out of bounds")) ∧
    (∀ (pkb senc : Bytes) (s : Slot) (mb : Bytes) (v : Nat) (rest : Bytes),
      pkb.length = PUBLIC_KEY_SIZE_BYTES →
      Slot.to_bytes_compact s = .ok senc →
      mb.length = HASH_SIZE_BYTES →
      v < 2 ^ 32 → ctx.endorsement_count < v →
      BlockHeaderContent.from_bytes_compact ctx
        (pkb ++ (senc ++ ((0 : Nat) :: (mb ++ (toVarintBytes v ++ rest)))))
        = .error (.DeserializeError "varint value out of bounds")) := by
  constructor
  · intro buf h d cb rest v hh hle hdrop hw hv hbig
    unfold Block.from_bytes_compact
    rw [hh]
    dsimp only
    rw [if_neg (by omega)]
    have hbe : from_be_bytes_min (buf.drop d) ctx.max_operations_per_block
        = .error (.DeserializeError "be-min value out of bounds") := by
      rw [hdrop]
      unfold from_be_bytes_min
      have hlen : byteWidth ctx.max_operations_per_block ≤ (cb ++ rest).length := by
        rw [List.length_append]
        omega
      rw [if_pos hlen]
      have htake : (cb ++ rest).take (byteWidth ctx.max_operations_per_block) = cb := by
        rw [← hw, List.take_left]
      rw [htake, hv, if_pos hbig]
    rw [hbe]
  · intro pkb senc s mb v rest hpk hs hmb hv32 hbig
    set B : Bytes := pkb ++ (senc ++ ((0 : Nat) :: (mb ++ (toVarintBytes v ++ rest))))
      with hB
    have h1 : array_from_slice PUBLIC_KEY_SIZE_BYTES B = .ok pkb := by
      rw [hB, ← hpk, array_from_slice_append_self]
    have h2 : Slot.from_bytes_compact (B.drop PUBLIC_KEY_SIZE_BYTES)
        = .ok (s, senc.length) := by
      rw [hB, ← hpk, drop_append_self]
      exact slot_roundtrip _ _ _ hs
    have hd3 : B.drop (PUBLIC_KEY_SIZE_BYTES + senc.length)
        = (0 : Nat) :: (mb ++ (toVarintBytes v ++ rest)) := by
      rw [hB, ← hpk, drop_append_plus, drop_append_self]
    have h3 : u8_from_slice (B.drop (PUBLIC_KEY_SIZE_BYTES + senc.length)) = .ok 0 := by
      rw [hd3]
      rfl
    have hd4 : B.drop (PUBLIC_KEY_SIZE_BYTES + senc.length + 1)
        = mb ++ (toVarintBytes v ++ rest) := by
      rw [show PUBLIC_KEY_SIZE_BYTES + senc.length + 1
        = (PUBLIC_KEY_SIZE_BYTES + senc.length) + 1 from rfl,
        ← List.drop_drop, hd3, List.drop_succ_cons, List.drop_zero]
    have h4 : array_from_slice HASH_SIZE_BYTES
        (B.drop (PUBLIC_KEY_SIZE_BYTES + senc.length + 1)) = .ok mb := by
      rw [hd4, ← hmb, array_from_slice_append_self]
    have hd5 : B.drop (PUBLIC_KEY_SIZE_BYTES + senc.length + 1 + HASH_SIZE_BYTES)
        = toVarintBytes v ++ rest := by
      rw [← List.drop_drop, hd4, ← hmb, drop_append_self]
    have h5 : fromVarintBytesBounded
        (B.drop (PUBLIC_KEY_SIZE_BYTES + senc.length + 1 + HASH_SIZE_BYTES))
        ctx.endorsement_count
        = .error (.DeserializeError "varint value out of bounds") := by
      rw [hd5]
      unfold fromVarintBytesBounded
      rw [fromVarintBytes_toVarintBytes]
      dsimp only
      rw [if_neg (by omega), if_pos hbig]
    unfold BlockHeaderContent.from_bytes_compact
    simp only [h1, h2, h3]
    rw [if_neg (show ¬ ((0 : Nat) = 1) by omega)]
    simp only [ite_true, h4, h5]

/-- **C3 (amended).** For every block that serializes successfully *and*
satisfies the structural constraints the decoder enforces — parents empty or
exactly `thread_count`, endorsement count within the configured cap,
fixed-width fields of the correct byte length, encoding no longer than
`max_block_size` — decoding the encoding returns the same block with
`bytes_consumed` equal to the encoding's length; and encoding is
deterministic. -/
theorem claim_c3_block_roundtrip (ctx : SerializationContext) (b : Block)
    (bs : Bytes)
    (hcr : b.header.content.creator.bytes.length = PUBLIC_KEY_SIZE_BYTES)
    (hmr : b.header.content.operation_merkle_root.bytes.length = HASH_SIZE_BYTES)
    (hpar : b.header.content.parents = [] ∨
      b.header.content.parents.length = ctx.thread_count)
    (hparwf : ∀ p ∈ b.header.content.parents,
      p.hash.bytes.length = BLOCK_ID_SIZE_BYTES)
    (hewf : ∀ e ∈ b.header.content.endorsements, WfEndorsement e)
    (hecnt : b.header.content.endorsements.length ≤ ctx.endorsement_count)
    (hsig : b.header.signature.bytes.length = SIGNATURE_SIZE_BYTES)
    (hops : ∀ op ∈ b.operations,
      op.content.sender_public_key.bytes.length = PUBLIC_KEY_SIZE_BYTES ∧
        op.signature.bytes.length = SIGNATURE_SIZE_BYTES)
    (henc : Block.to_bytes_compact ctx b = .ok bs)
    (hsize : bs.length ≤ ctx.max_block_size) :
    Block.from_bytes_compact ctx bs = .ok (b, bs.length) ∧
      ∀ bs2, Block.to_bytes_compact ctx b = .ok bs2 → bs2 = bs := by
  refine ⟨block_roundtrip ctx b bs hcr hmr hpar hparwf hewf hecnt
    hsig hops henc hsize, ?_⟩
  intro bs2 h2
  rw [henc, Except.ok.injEq] at h2
  exact h2.symm

/-- **C6 (amended).** For every private key `k` and header content `c` whose
creator is the public key derived from `k`, `new_signed` returns the content
unchanged, a block id equal to the hash of the header's compact encoding,
a header that passes `check_signature`, and a signature over the double-hash
message `hash(slot_key_bytes ++ hash(serialize(content)))`. -/
theorem claim_c6_new_signed (k : PrivateKey) (c : BlockHeaderContent)
    (id : BlockId) (h : BlockHeader)
    (hcr : c.creator = derive_public_key k)
    (hn : BlockHeader.new_signed k c = .ok (id, h)) :
    h.content = c ∧
      (∀ hb, BlockHeader.to_bytes_compact h = .ok hb →
        id = ⟨Hash.compute_from hb⟩) ∧
      BlockHeader.check_signature h = .ok () ∧
      (∀ cb, c.to_bytes_compact = .ok cb →
        sign (Hash.compute_from (c.slot.to_bytes_key
          ++ (Hash.compute_from cb).bytes)) k = .ok h.signature) := by
  unfold BlockHeader.new_signed at hn
  cases hch : c.compute_hash with
  | error e => rw [hch] at hn; cases hn
  | ok hsh =>
    rw [hch] at hn
    dsimp only [sign] at hn
    cases hbid : BlockHeader.compute_block_id
        ⟨c, ⟨(BlockHeader.get_signature_message c.slot hsh).bytes
          ++ (derive_public_key k).bytes⟩⟩ with
    | error e => rw [hbid] at hn; cases hn
    | ok bid =>
      rw [hbid] at hn
      dsimp only at hn
      rw [Except.ok.injEq, Prod.mk.injEq] at hn
      obtain ⟨hid2, hh2⟩ := hn
      subst hid2
      subst hh2
      refine ⟨rfl, ?_, ?_, ?_⟩
      · intro hb hhb
        unfold BlockHeader.compute_block_id at hbid
        rw [hhb] at hbid
        dsimp only at hbid
        rw [Except.ok.injEq] at hbid
        exact hbid.symm
      · unfold BlockHeader.check_signature
        rw [hch]
        unfold BlockHeader.verify_signature_against
          BlockHeader.verify_slot_hash_signature verify_signature
        dsimp only
        rw [hcr, if_pos rfl]
      · intro cb hcb
        unfold BlockHeaderContent.compute_hash at hch
        rw [hcb] at hch
        dsimp only at hch
        rw [Except.ok.injEq] at hch
        subst hch
        rfl

/-- The parents loop returns exactly as many block ids as it was asked
for. -/
theorem readBlockIds_length (buf : Bytes) :
    ∀ (k cursor : Nat) (ids : List BlockId) (c : Nat),
      readBlockIds buf cursor k = .ok (ids, c) → ids.length = k := by
  intro k
  induction k with
  | zero =>
    intro cursor ids c hok
    unfold readBlockIds at hok
    rw [Except.ok.injEq, Prod.mk.injEq] at hok
    rw [← hok.1]
    rfl
  | succ k ih =>
    intro cursor ids c hok
    unfold readBlockIds at hok
    cases h1 : array_from_slice BLOCK_ID_SIZE_BYTES (buf.drop cursor) with
    | error e => rw [h1] at hok; cases hok
    | ok idb =>
      rw [h1] at hok
      dsimp only [BlockId.from_bytes, Hash.from_bytes] at hok
      cases h2 : readBlockIds buf (cursor + BLOCK_ID_SIZE_BYTES) k with
      | error e => rw [h2] at hok; cases hok
      | ok r =>
        rw [h2] at hok
        dsimp only at hok
        rw [Except.ok.injEq, Prod.mk.injEq] at hok
        rw [← hok.1, List.length_cons, ih (cursor + BLOCK_ID_SIZE_BYTES) r.1 r.2
          (by rw [h2])]

/-- **C8 (amended).** Every successfully decoded header content has a
parents list that is either empty or has exactly `thread_count` entries
(the flag byte, not the slot's period, decides which). -/
theorem claim_c8_parent_count (ctx : SerializationContext) (buf : Bytes)
    (c : BlockHeaderContent) (n : Nat)
    (hdec : BlockHeaderContent.from_bytes_compact ctx buf = .ok (c, n)) :
    c.parents = [] ∨ c.parents.length = ctx.thread_count := by
  unfold BlockHeaderContent.from_bytes_compact at hdec
  cases h1 : array_from_slice PUBLIC_KEY_SIZE_BYTES buf with
  | error e => rw [h1] at hdec; cases hdec
  | ok pkb =>
    rw [h1] at hdec
    dsimp only at hdec
    cases h2 : Slot.from_bytes_compact (buf.drop PUBLIC_KEY_SIZE_BYTES) with
    | error e => rw [h2] at hdec; cases hdec
    | ok sq =>
      rw [h2] at hdec
      dsimp only at hdec
      cases h3 : u8_from_slice (buf.drop (PUBLIC_KEY_SIZE_BYTES + sq.2)) with
      | error e => rw [h3] at hdec; cases hdec
      | ok flag =>
        rw [h3] at hdec
        dsimp only at hdec
        by_cases hf1 : flag = 1
        · rw [if_pos hf1] at hdec
          cases h4 : readBlockIds buf (PUBLIC_KEY_SIZE_BYTES + sq.2 + 1)
              ctx.thread_count with
          | error e => rw [h4] at hdec; cases hdec
          | ok pr =>
            rw [h4] at hdec
            dsimp only at hdec
            cases h5 : array_from_slice HASH_SIZE_BYTES (buf.drop pr.2) with
            | error e => rw [h5] at hdec; cases hdec
            | ok mb =>
              rw [h5] at hdec
              dsimp only at hdec
              cases h6 : fromVarintBytesBounded (buf.drop (pr.2 + HASH_SIZE_BYTES))
                  ctx.endorsement_count with
              | error e => rw [h6] at hdec; cases hdec
              | ok eq2 =>
                rw [h6] at hdec
                dsimp only at hdec
                cases h7 : readEndorsements buf (pr.2 + HASH_SIZE_BYTES + eq2.2)
                    eq2.1 with
                | error e => rw [h7] at hdec; cases hdec
                | ok er =>
                  rw [h7] at hdec
                  dsimp only at hdec
                  rw [Except.ok.injEq, Prod.mk.injEq] at hdec
                  right
                  rw [← hdec.1]
                  exact readBlockIds_length buf ctx.thread_count _ pr.1 pr.2
                    (by rw [h4])
        · rw [if_neg hf1] at hdec
          by_cases hf0 : flag = 0
          · rw [if_pos hf0] at hdec
            dsimp only at hdec
            cases h5 : array_from_slice HASH_SIZE_BYTES
                (buf.drop (PUBLIC_KEY_SIZE_BYTES + sq.2 + 1)) with
            | error e => rw [h5] at hdec; cases hdec
            | ok mb =>
              rw [h5] at hdec
              dsimp only at hdec
              cases h6 : fromVarintBytesBounded
                  (buf.drop (PUBLIC_KEY_SIZE_BYTES + sq.2 + 1 + HASH_SIZE_BYTES))
                  ctx.endorsement_count with
              | error e => rw [h6] at hdec; cases hdec
              | ok eq2 =>
                rw [h6] at hdec
                dsimp only at hdec
                cases h7 : readEndorsements buf
                    (PUBLIC_KEY_SIZE_BYTES + sq.2 + 1 + HASH_SIZE_BYTES + eq2.2)
                    eq2.1 with
                | error e => rw [h7] at hdec; cases hdec
                | ok er =>
                  rw [h7] at hdec
                  dsimp only at hdec
                  rw [Except.ok.injEq, Prod.mk.injEq] at hdec
                  left
                  rw [← hdec.1]
          · rw [if_neg hf0] at hdec
            cases hdec

/-- **C10.** `Block::contains_operation` decides membership by
content-addressed operation id: provided the probe operation's own id
computes, the result is `Ok`, and it is `Ok(true)` exactly when some
operation of the block has that id; an operation in the block whose id
computation fails counts as a non-match, never as an error. -/
theorem claim_c10_contains_operation (b : Block) (op : Operation)
    (opId : OperationId) (hid : op.get_operation_id = .ok opId) :
    (Block.contains_operation b op = .ok true ↔
      ∃ o ∈ b.operations, o.get_operation_id = .ok opId) ∧
    (∀ e, Block.contains_operation b op ≠ .error e) := by
  unfold Block.contains_operation
  rw [hid]
  dsimp only
  constructor
  · rw [Except.ok.injEq, List.any_eq_true]
    constructor
    · rintro ⟨o, ho, hpred⟩
      refine ⟨o, ho, ?_⟩
      cases hoid : o.get_operation_id with
      | error e => rw [hoid] at hpred; cases hpred
      | ok i =>
        rw [hoid] at hpred
        have : i = opId := of_decide_eq_true hpred
        rw [this]
    · rintro ⟨o, ho, hoid⟩
      refine ⟨o, ho, ?_⟩
      rw [hoid]
      exact decide_eq_true rfl
  · intro e hcon
    cases hcon

/-! ## Concrete data for counterexamples and witnesses -/

instance (e : Endorsement) : Decidable (WfEndorsement e) :=
  inferInstanceAs (Decidable
    (e.content.sender_public_key.bytes.length = PUBLIC_KEY_SIZE_BYTES ∧
      e.content.endorsed_block.hash.bytes.length = BLOCK_ID_SIZE_BYTES ∧
      e.signature.bytes.length = SIGNATURE_SIZE_BYTES))

/-- Example serialization context: 2 threads, 10000-byte blocks, at most
1024 operations and 8 endorsements per block. -/
def ctxEx : SerializationContext := ⟨2, 10000, 1024, 8⟩

def opEx : Operation :=
  ⟨⟨300, 77, ⟨List.replicate 32 5⟩, 3⟩, ⟨List.replicate 64 9⟩⟩

def endoEx : Endorsement :=
  ⟨⟨⟨List.replicate 32 4⟩, ⟨9, 1⟩, 2, ⟨⟨List.replicate 32 8⟩⟩⟩,
   ⟨List.replicate 64 6⟩⟩

/-- A structurally well-formed block (two parents = `thread_count`, one
endorsement, one operation). -/
def blockEx : Block :=
  ⟨⟨⟨⟨List.replicate 32 1⟩, ⟨1, 0⟩,
     [⟨⟨List.replicate 32 2⟩⟩, ⟨⟨List.replicate 32 3⟩⟩],
     ⟨List.replicate 32 11⟩, [endoEx]⟩, ⟨List.replicate 64 12⟩⟩,
   [opEx]⟩

def blockExBytes : Bytes := (Block.to_bytes_compact ctxEx blockEx).toOption.getD []

def hdrEx : BlockHeader := blockEx.header

def hdrExBytes : Bytes := (BlockHeader.to_bytes_compact hdrEx).toOption.getD []

/-- A block that serializes successfully but has one parent while
`thread_count = 2`. -/
def blockCexParents : Block :=
  ⟨⟨⟨⟨List.replicate 32 0⟩, ⟨0, 0⟩, [⟨⟨List.replicate 32 7⟩⟩],
     ⟨List.replicate 32 0⟩, []⟩, ⟨List.replicate 64 0⟩⟩, []⟩

/-- **C3 counterexample.** `blockCexParents` serializes successfully under
`ctxEx`, yet decoding its own encoding fails — refuting the claim that
serialization success alone guarantees the round trip. -/
theorem claim_c3_counterexample :
    ((Block.to_bytes_compact ctxEx blockCexParents).toOption).isSome = true ∧
      ((Block.to_bytes_compact ctxEx blockCexParents).toOption.bind
        (fun bs => (Block.from_bytes_compact ctxEx bs).toOption)) = none := by
  decide

theorem claim_c3_block_roundtrip_witness :
    Block.from_bytes_compact ctxEx blockExBytes = .ok (blockEx, blockExBytes.length) :=
  (claim_c3_block_roundtrip ctxEx blockEx blockExBytes (by decide) (by decide)
    (by decide) (by decide) (by decide) (by decide) (by decide) (by decide)
    (by decide) (by decide)).1

/-- A context whose `max_block_size` is zero, so any decoded header already
exceeds the cap. -/
def ctxTiny : SerializationContext := ⟨2, 0, 1024, 8⟩

def bufC4 : Bytes := hdrExBytes ++ [0, 0]

theorem claim_c4_witness :
    Block.from_bytes_compact ctxTiny bufC4
      = .error (.DeserializeError "block is too large") :=
  (claim_c4_block_size_cap ctxTiny bufC4).2.1 hdrEx hdrExBytes.length
    (by decide) (by decide)

/-- A context allowing at most 2 operations per block (its bounded
big-endian count field is one byte wide). -/
def ctxOps2 : SerializationContext := ⟨2, 100000, 2, 8⟩

def bufC5 : Bytes := hdrExBytes ++ [3]

theorem claim_c5_witness :
    Block.from_bytes_compact ctxOps2 bufC5
        = .error (.DeserializeError "be-min value out of bounds") ∧
      BlockHeaderContent.from_bytes_compact ctxOps2
          (List.replicate 32 0 ++ ([0, 0] ++ ((0 : Nat) ::
            (List.replicate 32 0 ++ (toVarintBytes 9 ++ [])))))
        = .error (.DeserializeError "varint value out of bounds") :=
  ⟨(claim_c5_count_bounds ctxOps2).1 bufC5 hdrEx hdrExBytes.length [3] [] 3
      (by decide) (by decide) (by decide) (by decide) (by decide) (by decide),
   (claim_c5_count_bounds ctxOps2).2 (List.replicate 32 0) [0, 0] ⟨0, 0⟩
      (List.replicate 32 0) 9 [] (by decide) (by decide) (by decide)
      (by decide) (by decide)⟩

def keyEx : PrivateKey := ⟨[1, 2, 3]⟩

/-- A header content whose creator is the public key of `keyEx`. -/
def contentGood : BlockHeaderContent :=
  ⟨derive_public_key keyEx, ⟨1, 0⟩, [], ⟨List.replicate 32 11⟩, []⟩

/-- A header content whose creator is *not* the public key of `keyEx`. -/
def contentBadCreator : BlockHeaderContent :=
  ⟨⟨List.replicate 32 0⟩, ⟨1, 0⟩, [], ⟨List.replicate 32 11⟩, []⟩

def signedPairEx : BlockId × BlockHeader :=
  (BlockHeader.new_signed keyEx contentGood).toOption.getD
    (⟨⟨[]⟩⟩, ⟨contentGood, ⟨[]⟩⟩)

/-- **C6 counterexample.** `new_signed` succeeds on a content whose creator
differs from the signing key's public key, yet the resulting header fails
`check_signature` — refuting the claim as stated for every `k` and `c`. -/
theorem claim_c6_counterexample :
    ((BlockHeader.new_signed keyEx contentBadCreator).toOption.map
      (fun q => BlockHeader.check_signature q.2)) = some (.error .InvalidSignature) := by
  decide

theorem claim_c6_witness :
    BlockHeader.check_signature signedPairEx.2 = .ok () :=
  (claim_c6_new_signed keyEx contentGood signedPairEx.1 signedPairEx.2 rfl
    (by decide)).2.2.1

/-- A header-content buffer with slot period 1 and parents flag 0 (no
parents): creator key, slot `(1,0)`, flag 0, merkle root, endorsement
count 0. -/
def bufC8 : Bytes :=
  List.replicate 32 0 ++ [1, 0] ++ [0] ++ List.replicate 32 0 ++ [0]

/-- **C8 counterexample.** `bufC8` decodes successfully to a header content
with an empty parents list and slot period 1 — refuting "parents is empty
iff the slot's period is 0". -/
theorem claim_c8_counterexample :
    ((BlockHeaderContent.from_bytes_compact ctxEx bufC8).toOption.map
      (fun q => (q.1.parents, q.1.slot.period))) = some ([], 1) := by
  decide

def hdrContentC8 : BlockHeaderContent × Nat :=
  (BlockHeaderContent.from_bytes_compact ctxEx bufC8).toOption.getD
    (⟨⟨[]⟩, ⟨0, 0⟩, [], ⟨[]⟩, []⟩, 0)

theorem claim_c8_witness :
    hdrContentC8.1.parents = [] ∨
      hdrContentC8.1.parents.length = ctxEx.thread_count :=
  claim_c8_parent_count ctxEx bufC8 hdrContentC8.1 hdrContentC8.2 (by decide)

/-- A header-content buffer whose parents flag byte is 2 (neither 0
nor 1). -/
def bufC9 : Bytes := List.replicate 32 0 ++ [0, 0] ++ [2]

/-- **C9 (code behaviour at the failing input).** A parents flag byte of 2
makes `BlockHeaderContent::from_bytes_compact` fail — but with a
`SerializeError`, not the `DeserializeError` the specification prescribes
for malformed input. -/
theorem claim_c9_bad_flag_error :
    BlockHeaderContent.from_bytes_compact ctxEx bufC9
      = .error (.SerializeError
        "BlockHeaderContent from_bytes_compact bad has parents flags.") := by
  decide

def opIdEx : OperationId := (opEx.get_operation_id).toOption.getD ⟨⟨[]⟩⟩

theorem claim_c10_witness :
    Block.contains_operation blockEx opEx = .ok true :=
  (claim_c10_contains_operation blockEx opEx opIdEx (by decide)).1.mpr
    ⟨opEx, by decide, by decide⟩

def oid1 : OperationId := ⟨⟨List.replicate 32 21⟩⟩

def infoKnow : NodeInfo := ⟨[], [oid1], []⟩

def infoEmpty : NodeInfo := ⟨[], [], []⟩

/-- Two connected peers: peer 1 already knows `oid1`, peer 2 does not. -/
def stateC1 : WorkerState := ⟨[(1, infoKnow), (2, infoEmpty)], [], []⟩

def opsC1 : List (OperationId × Operation) := [(oid1, opEx)]

theorem claim_c1_witness :
    oid1 ∈ knownOps (propagate_operations stateC1 opsC1).1 2 :=
  (claim_c1_propagate_respects_knowledge stateC1 (by decide) opsC1 2 opsC1
    (by decide) oid1 opEx).2 (by decide)

/-- One connected peer and a block-info entry for the signed example
header, recording `oid1` as a contained operation. -/
def stateC2 : WorkerState :=
  ⟨[(1, infoEmpty)], [(signedPairEx.1, ([oid1], []))], []⟩

theorem claim_c2_witness :
    oid1 ∈ knownOps (handle_received_header stateC2 1 signedPairEx.2).1 1 :=
  ((claim_c2_header_body_knowledge stateC2 (by decide) 1 infoEmpty (by decide)
      signedPairEx.2 signedPairEx.1 (by decide) (by decide)).1
    [oid1] [] (by decide)).1 oid1 (by decide)

def opValidContent : OperationContent := ⟨5, 10, derive_public_key keyEx, 0⟩

/-- An operation correctly signed with `keyEx`. -/
def opValid : Operation :=
  ⟨opValidContent,
   (sign (Hash.compute_from ((opValidContent.to_bytes_compact).toOption.getD []))
     keyEx).toOption.getD ⟨[]⟩⟩

/-- `opValid` with its fee mutated after signing: the signature no longer
verifies. -/
def opBad : Operation := ⟨⟨999, 10, derive_public_key keyEx, 0⟩, opValid.signature⟩

def stateC7 : WorkerState := ⟨[(1, infoEmpty)], [], []⟩

theorem claim_c7_witness :
    (handle_received_operations stateC7 1 [opBad]).2 = [] :=
  (claim_c7_received_operations_filtering stateC7 1 [opBad]
    ((handle_received_operations stateC7 1 [opBad]).2) rfl).2 (by decide)

end Massa
